import Mathlib

/-!
# clangprebuilts: load hooks of the LLVM prebuilt modules

A shallow embedding of `soong/clangprebuilts.go`.  Each load hook is a pure
function from the hook context to the list of property patches it hands to
`ctx.AppendProperties`, in call order.

Go strings are embedded as `String`; the functions of Go's standard library and
of Soong's `android.Config` that the hooks call are embedded next to them,
following their Go sources.  A Go slice is an `Option (List _)` (`none` is the
nil slice), a Go pointer field is an `Option _` (`none` is the nil pointer).
-/

/-! ## Go standard library: `strings` -/

namespace strings

/-- `strings.HasPrefix(s, pre)`: `len(s) >= len(pre) && s[:len(pre)] == pre`. -/
def HasPrefix (s pre : String) : Bool :=
  decide (s.data.length ≥ pre.data.length) && decide (s.data.take pre.data.length = pre.data)

/-- `strings.TrimPrefix(s, pre)`: `s` without the leading `pre`, or `s` itself
when it does not start with `pre`. -/
def TrimPrefix (s pre : String) : String :=
  if HasPrefix s pre then ⟨s.data.drop pre.data.length⟩ else s

/-- Index of the first position at which `sub` starts in `s`, `none` for Go's `-1`
(`strings.Index`, on the characters). -/
def indexChars (sub : List Char) : List Char → Option Nat
  | [] => if sub = [] then some 0 else none
  | c :: cs =>
    if (c :: cs).take sub.length = sub then some 0
    else (indexChars sub cs).map (· + 1)

/-- The replacement loop of `strings.Replace` for a non-empty `old`: at most `n`
times, copy up to the next occurrence of `old`, write `new`, and go on behind
the occurrence; the rest is copied unchanged. -/
def replaceChars (old new : List Char) : Nat → List Char → List Char
  | 0, s => s
  | n + 1, s =>
    match indexChars old s with
    | none => s
    | some j => s.take j ++ new ++ replaceChars old new n (s.drop (j + old.length))

/-- `strings.Replace(s, old, new, n)` for `n ≥ 0` and a non-empty `old` (every
call in this package passes `"prebuilt_"`): `old == new || n == 0` returns `s`. -/
def Replace (s old new : String) (n : Nat) : String :=
  if old = new ∨ n = 0 then s else ⟨replaceChars old.data new.data n s.data⟩

end strings

/-! ## Go standard library: `path` -/

namespace path

/-- The backtracking loop of the `..` case of `path.Clean`, entered after the
first `out.w--` with write index `w`:
`for out.w > dotdot && out.index(out.w) != '/' { out.w-- }`.
Returns the final write index. -/
def backtrack (buf : List Char) (dotdot : Nat) : Nat → Nat
  | 0 => 0
  | w + 1 =>
    if w + 1 > dotdot ∧ buf.get? (w + 1) ≠ some '/' then backtrack buf dotdot w else w + 1

/-- The main loop `for r < n { switch ... }` of `path.Clean`.  `r` is the unread
part `path[r:]`, `out` the written part of the buffer (`out.w` is its length);
every round reads at least one byte, so `fuel = len(path)` rounds suffice. -/
def cleanLoop (rooted : Bool) : Nat → List Char → List Char → Nat → List Char
  | 0, _, out, _ => out
  | _ + 1, [], out, _ => out
  | fuel + 1, c :: rest, out, dotdot =>
    if c = '/' then
      -- empty path element
      cleanLoop rooted fuel rest out dotdot
    else if c = '.' ∧ (rest = [] ∨ rest.head? = some '/') then
      -- . element
      cleanLoop rooted fuel rest out dotdot
    else if c = '.' ∧ rest.head? = some '.' ∧ (rest.tail = [] ∨ rest.tail.head? = some '/') then
      -- .. element: remove to last /
      if out.length > dotdot then
        cleanLoop rooted fuel rest.tail (out.take (backtrack out dotdot (out.length - 1))) dotdot
      else if !rooted then
        let out1 := (if out.length > 0 then out ++ ['/'] else out) ++ ['.', '.']
        cleanLoop rooted fuel rest.tail out1 out1.length
      else
        cleanLoop rooted fuel rest.tail out dotdot
    else
      -- real path element: add slash if needed, copy element
      let out1 :=
        if (rooted && out.length != 1) || (!rooted && out.length != 0) then out ++ ['/'] else out
      cleanLoop rooted fuel (rest.dropWhile (· ≠ '/')) (out1 ++ c :: rest.takeWhile (· ≠ '/')) dotdot

/-- The main loop of `path.Clean` on the unread part `r`, with the rounds its
length allows. -/
def cleanRun (rooted : Bool) (r out : List Char) (dotdot : Nat) : List Char :=
  cleanLoop rooted r.length r out dotdot

/-- A real path element in the sense of `path.Clean`: not empty, without a
slash, and neither `.` nor `..`. -/
def isElement (s : List Char) : Prop :=
  s ≠ [] ∧ '/' ∉ s ∧ s ≠ ['.'] ∧ s ≠ ['.', '.']

instance (s : List Char) : Decidable (isElement s) := by
  unfold isElement
  infer_instance

/-- The characters of `strings.Join(elems, "/")`. -/
def joinElems : List (List Char) → List Char
  | [] => []
  | [s] => s
  | s :: t => s ++ '/' :: joinElems t

/-- `path.Clean` on the characters of the path. -/
def cleanChars (p : List Char) : List Char :=
  if p = [] then ['.']
  else
    let rooted := decide (p.head? = some '/')
    let out :=
      if rooted then cleanLoop rooted p.length p.tail ['/'] 1
      else cleanLoop rooted p.length p [] 0
    if out.length = 0 then ['.'] else out

/-- `path.Clean(path)`: the shortest path name equivalent to `path` by purely
lexical processing. -/
def Clean (p : String) : String := ⟨cleanChars p.data⟩

/-- `strings.Join(elems, "/")` for a non-empty list, given as head and tail. -/
def joinSlash (e : String) (es : List String) : String :=
  es.foldl (fun buf x => buf ++ "/" ++ x) e

/-- A relative path: not empty and not starting with a slash. -/
def isRelative (s : String) : Prop :=
  s ≠ "" ∧ s.data.head? ≠ some '/'

instance (s : String) : Decidable (isRelative s) := by
  unfold isRelative
  infer_instance

/-- `path.Join(elem...)`: the elements from the first non-empty one on, joined
with slashes and cleaned; the empty string when every element is empty. -/
def Join (elem : List String) : String :=
  match elem.dropWhile (fun e => e == "") with
  | [] => ""
  | e :: es => Clean (joinSlash e es)

end path

/-! ## Go standard library: `path/filepath` (Unix) -/

namespace filepath

/-- `filepath.Abs(path)` on Unix, with `wd` the result of `os.Getwd()` (`none`
when it fails): a rooted path is cleaned, any other path is joined to the
working directory.  `none` is a non-nil `error`.  On Unix `filepath.Clean` and
`filepath.Join` coincide with those of package `path`. -/
def Abs (wd : Option String) (p : String) : Option String :=
  if p.data.head? = some '/' then some (path.Clean p)
  else
    match wd with
    | none => none
    | some w => some (path.Join [w, p])

end filepath

/-! ## Soong: `android.LoadHookContext`, `android.Config`, `cc/config` -/

/-- The two constants of `android/soong/cc/config` the package reads. -/
structure ClangDefaults where
  ClangDefaultVersion : String
  ClangDefaultShortVersion : String

/-- What a load hook reads through its `android.LoadHookContext`: the process
environment behind `ctx.AConfig()` (`none`: the variable is unset), the module
name, and the working directory of the process as `os.Getwd()` reports it. -/
structure LoadHookContext where
  environ : String → Option String
  moduleName : String
  wd : Option String

namespace LoadHookContext

/-- `ctx.ModuleName()`. -/
def ModuleName (ctx : LoadHookContext) : String := ctx.moduleName

/-- `ctx.AConfig().Getenv(key)`: the value of the variable, `""` when unset. -/
def Getenv (ctx : LoadHookContext) (key : String) : String :=
  (ctx.environ key).getD ""

/-- `ctx.AConfig().GetenvWithDefault(key, def)`: `def` when `Getenv(key) == ""`. -/
def GetenvWithDefault (ctx : LoadHookContext) (key dflt : String) : String :=
  let ret := ctx.Getenv key
  if ret = "" then dflt else ret

/-- `ctx.AConfig().IsEnvTrue(key)`. -/
def IsEnvTrue (ctx : LoadHookContext) (key : String) : Bool :=
  let value := ctx.Getenv key
  value == "1" || value == "y" || value == "yes" || value == "on" || value == "true"

end LoadHookContext

/-! ## Package `clangprebuilts` -/

/-- The resolved `LLVM_PREBUILTS_VERSION` argument of `getClangPrebuiltDir`. -/
def prebuiltsVersion (cfg : ClangDefaults) (ctx : LoadHookContext) : String :=
  ctx.GetenvWithDefault "LLVM_PREBUILTS_VERSION" cfg.ClangDefaultVersion

/-- `getClangPrebuiltDir(ctx)`. -/
def getClangPrebuiltDir (cfg : ClangDefaults) (ctx : LoadHookContext) : String :=
  path.Join ["./", prebuiltsVersion cfg ctx]

/-- The local `releaseVersion` of `getClangResourceDir`. -/
def releaseVersion (cfg : ClangDefaults) (ctx : LoadHookContext) : String :=
  ctx.GetenvWithDefault "LLVM_RELEASE_VERSION" cfg.ClangDefaultShortVersion

/-- `getClangResourceDir(ctx)`. -/
def getClangResourceDir (cfg : ClangDefaults) (ctx : LoadHookContext) : String :=
  let clangDir := getClangPrebuiltDir cfg ctx
  path.Join [clangDir, "lib64", "clang", releaseVersion cfg ctx, "lib", "linux"]

/-- The anonymous `struct { Srcs []string }` of each `archProps` field. -/
structure SrcsProps where
  Srcs : Option (List String) := none
  deriving DecidableEq, Repr

/-- `type archProps struct`. -/
structure archProps where
  Android_arm : SrcsProps := {}
  Android_arm64 : SrcsProps := {}
  Android_mips : SrcsProps := {}
  Android_mips64 : SrcsProps := {}
  Android_x86 : SrcsProps := {}
  Android_x86_64 : SrcsProps := {}
  deriving DecidableEq, Repr

namespace llvmPrebuiltLibraryStatic

/-- The local `type props struct` of `llvmPrebuiltLibraryStatic`. -/
structure props where
  Enabled : Option Bool := none
  Export_include_dirs : Option (List String) := none
  Target : archProps := {}
  deriving DecidableEq, Repr

/-- The local `enableLLVMPrebuilts` once the `LLVM_PREBUILTS_BASE` block has run. -/
def enableLLVMPrebuilts (ctx : LoadHookContext) : Bool :=
  let prebuiltsBase := ctx.Getenv "LLVM_PREBUILTS_BASE"
  if prebuiltsBase ≠ "" then
    match filepath.Abs ctx.wd prebuiltsBase, filepath.Abs ctx.wd ".." with
    | some prebuiltsBaseAbs, some moduleBaseAbs =>
      if prebuiltsBaseAbs ≠ moduleBaseAbs then false else true
    | _, _ => true
  else true

/-- The local `name`: the file name of the archive. -/
def name (ctx : LoadHookContext) : String :=
  strings.TrimPrefix ctx.ModuleName "prebuilt_" ++ ".a"

end llvmPrebuiltLibraryStatic

/-- `llvmPrebuiltLibraryStatic(ctx)`: the patches passed to `ctx.AppendProperties`. -/
def llvmPrebuiltLibraryStatic (cfg : ClangDefaults) (ctx : LoadHookContext) :
    List llvmPrebuiltLibraryStatic.props :=
  let enableLLVMPrebuilts := llvmPrebuiltLibraryStatic.enableLLVMPrebuilts ctx
  let libDir := getClangResourceDir cfg ctx
  let name := llvmPrebuiltLibraryStatic.name ctx
  let p : llvmPrebuiltLibraryStatic.props := {}
  let p := { p with Enabled := some enableLLVMPrebuilts }
  let p :=
    if name = "libFuzzer.a" then
      let headerDir :=
        path.Join [getClangPrebuiltDir cfg ctx, "prebuilt_include", "llvm", "lib", "Fuzzer"]
      { p with Export_include_dirs := some [headerDir] }
    else p
  let p := { p with Target.Android_arm.Srcs := some [path.Join [libDir, "arm", name]] }
  let p := { p with Target.Android_arm64.Srcs := some [path.Join [libDir, "aarch64", name]] }
  let p := { p with Target.Android_mips.Srcs := some [path.Join [libDir, "mips", name]] }
  let p := { p with Target.Android_mips64.Srcs := some [path.Join [libDir, "mips64", name]] }
  let p := { p with Target.Android_x86.Srcs := some [path.Join [libDir, "i386", name]] }
  let p := { p with Target.Android_x86_64.Srcs := some [path.Join [libDir, "x86_64", name]] }
  [p]

namespace libClangRtPrebuiltLibraryShared

/-- The anonymous `struct { Never bool }`. -/
structure SanitizeProps where
  Never : Bool := false
  deriving DecidableEq, Repr

/-- The anonymous `struct { None bool }`. -/
structure StripProps where
  None : Bool := false
  deriving DecidableEq, Repr

/-- The local `type props struct` of `libClangRtPrebuiltLibraryShared`. -/
structure props where
  Srcs : Option (List String) := none
  System_shared_libs : Option (List String) := none
  Sanitize : SanitizeProps := {}
  Strip : StripProps := {}
  Pack_relocations : Option Bool := none
  Stl : Option String := none
  deriving DecidableEq, Repr

end libClangRtPrebuiltLibraryShared

/-- `libClangRtPrebuiltLibraryShared(ctx)`: the patches passed to
`ctx.AppendProperties`. -/
def libClangRtPrebuiltLibraryShared (cfg : ClangDefaults) (ctx : LoadHookContext) :
    List libClangRtPrebuiltLibraryShared.props :=
  if ctx.IsEnvTrue "FORCE_BUILD_SANITIZER_SHARED_OBJECTS" then []
  else
    let libDir := getClangResourceDir cfg ctx
    let p : libClangRtPrebuiltLibraryShared.props := {}
    let name := strings.Replace ctx.ModuleName "prebuilt_" "" 1
    let p := { p with Srcs := some [path.Join [libDir, name ++ ".so"]] }
    let p := { p with System_shared_libs := some [] }
    let p := { p with Sanitize.Never := true }
    let p := { p with Strip.None := true }
    let disable := false
    let p := { p with Pack_relocations := some disable }
    let none := "none"
    let p := { p with Stl := some none }
    [p]

namespace libClangRtPrebuiltLibraryStatic

/-- The local `type props struct` of `libClangRtPrebuiltLibraryStatic`. -/
structure props where
  Srcs : Option (List String) := none
  deriving DecidableEq, Repr

end libClangRtPrebuiltLibraryStatic

/-- `libClangRtPrebuiltLibraryStatic(ctx)`: the patches passed to
`ctx.AppendProperties`. -/
def libClangRtPrebuiltLibraryStatic (cfg : ClangDefaults) (ctx : LoadHookContext) :
    List libClangRtPrebuiltLibraryStatic.props :=
  let libDir := getClangResourceDir cfg ctx
  let name := strings.Replace ctx.ModuleName "prebuilt_" "" 1
  let p : libClangRtPrebuiltLibraryStatic.props := {}
  let p := { p with Srcs := some [path.Join [libDir, name ++ ".a"]] }
  [p]

/-! ## The architecture table of the specification -/

/-- The six supported target architectures (the fields of `archProps`). -/
inductive Arch where
  | arm | arm64 | mips | mips64 | x86 | x86_64
  deriving DecidableEq, Repr

namespace Arch

/-- The build system's identifier of an architecture. -/
def identifier : Arch → String
  | arm => "arm"
  | arm64 => "arm64"
  | mips => "mips"
  | mips64 => "mips64"
  | x86 => "x86"
  | x86_64 => "x86_64"

/-- Specification side (ArchMap, `subdirFor`): the artifact subdirectory the
specification assigns to an architecture identifier. -/
def specSubdirFor : Arch → String
  | arm => "arm"
  | arm64 => "aarch64"
  | mips => "mips"
  | mips64 => "mips64"
  | x86 => "i386"
  | x86_64 => "x86_64"

end Arch

/-- The field `Android_<arch>` of an `archProps`. -/
def archProps.field (t : archProps) : Arch → SrcsProps
  | .arm => t.Android_arm
  | .arm64 => t.Android_arm64
  | .mips => t.Android_mips
  | .mips64 => t.Android_mips64
  | .x86 => t.Android_x86
  | .x86_64 => t.Android_x86_64

/-! ## Example contexts -/

/-- The defaults used in the examples. -/
def exampleDefaults : ClangDefaults := ⟨"11.0.1", "11.0.1"⟩

/-- An environment in which only `key` is set, to `value`. -/
def envWith (key value : String) : String → Option String :=
  fun k => if k = key then some value else none

/-! ## Helper lemmas: strings -/

theorem String.append_right_cancel_iff (a b c : String) : a ++ c = b ++ c ↔ a = b := by
  constructor
  · intro h
    have h2 := congrArg String.data h
    simp only [String.data_append] at h2
    exact String.ext (List.append_cancel_right h2)
  · intro h; rw [h]

theorem strings.TrimPrefix_eq_iff_libFuzzer (m : String) :
    strings.TrimPrefix m "prebuilt_" = "libFuzzer" ↔
      m = "prebuilt_libFuzzer" ∨ m = "libFuzzer" := by
  constructor
  · intro h
    unfold strings.TrimPrefix at h
    split at h
    · rename_i hp
      left
      simp only [strings.HasPrefix, Bool.and_eq_true, decide_eq_true_eq] at hp
      have hd : m.data.drop ("prebuilt_" : String).data.length = ("libFuzzer" : String).data :=
        congrArg String.data h
      apply String.ext
      rw [← List.take_append_drop ("prebuilt_" : String).data.length m.data, hp.2, hd]
      rfl
    · right; exact h
  · rintro (h | h) <;> subst h <;> decide

/-! ## Helper lemmas: the shape of the patches -/

/-- The patch of `llvmPrebuiltLibraryStatic`, field by field. -/
theorem llvmPrebuiltLibraryStatic_eq (cfg : ClangDefaults) (ctx : LoadHookContext) :
    llvmPrebuiltLibraryStatic cfg ctx =
      [{ Enabled := some (llvmPrebuiltLibraryStatic.enableLLVMPrebuilts ctx)
         Export_include_dirs :=
           if llvmPrebuiltLibraryStatic.name ctx = "libFuzzer.a" then
             some [path.Join [getClangPrebuiltDir cfg ctx, "prebuilt_include", "llvm", "lib",
               "Fuzzer"]]
           else none
         Target :=
           { Android_arm := ⟨some [path.Join [getClangResourceDir cfg ctx, "arm",
               llvmPrebuiltLibraryStatic.name ctx]]⟩
             Android_arm64 := ⟨some [path.Join [getClangResourceDir cfg ctx, "aarch64",
               llvmPrebuiltLibraryStatic.name ctx]]⟩
             Android_mips := ⟨some [path.Join [getClangResourceDir cfg ctx, "mips",
               llvmPrebuiltLibraryStatic.name ctx]]⟩
             Android_mips64 := ⟨some [path.Join [getClangResourceDir cfg ctx, "mips64",
               llvmPrebuiltLibraryStatic.name ctx]]⟩
             Android_x86 := ⟨some [path.Join [getClangResourceDir cfg ctx, "i386",
               llvmPrebuiltLibraryStatic.name ctx]]⟩
             Android_x86_64 := ⟨some [path.Join [getClangResourceDir cfg ctx, "x86_64",
               llvmPrebuiltLibraryStatic.name ctx]]⟩ } }] := by
  unfold llvmPrebuiltLibraryStatic
  by_cases h : llvmPrebuiltLibraryStatic.name ctx = "libFuzzer.a" <;> simp [h]

/-- The patch of `libClangRtPrebuiltLibraryShared` when the hook does not return
early, field by field. -/
theorem libClangRtPrebuiltLibraryShared_eq (cfg : ClangDefaults) (ctx : LoadHookContext)
    (h : ctx.IsEnvTrue "FORCE_BUILD_SANITIZER_SHARED_OBJECTS" = false) :
    libClangRtPrebuiltLibraryShared cfg ctx =
      [{ Srcs := some [path.Join [getClangResourceDir cfg ctx,
           strings.Replace ctx.ModuleName "prebuilt_" "" 1 ++ ".so"]]
         System_shared_libs := some []
         Sanitize := ⟨true⟩
         Strip := ⟨true⟩
         Pack_relocations := some false
         Stl := some "none" }] := by
  simp [libClangRtPrebuiltLibraryShared, h]

/-- The patch of `libClangRtPrebuiltLibraryStatic`. -/
theorem libClangRtPrebuiltLibraryStatic_eq (cfg : ClangDefaults) (ctx : LoadHookContext) :
    libClangRtPrebuiltLibraryStatic cfg ctx =
      [⟨some [path.Join [getClangResourceDir cfg ctx,
          strings.Replace ctx.ModuleName "prebuilt_" "" 1 ++ ".a"]]⟩] := rfl

/-! ## Helper lemmas: the loop of `path.Clean` -/

namespace path

/-- One more round of fuel changes nothing once the fuel covers the unread part. -/
theorem cleanLoop_succ (rooted : Bool) :
    ∀ (f : Nat) (r out : List Char) (dd : Nat), r.length ≤ f →
      cleanLoop rooted (f + 1) r out dd = cleanLoop rooted f r out dd := by
  intro f
  induction f with
  | zero =>
    intro r out dd h
    have hr : r = [] := List.length_eq_zero.mp (Nat.le_zero.mp h)
    subst hr
    simp [cleanLoop]
  | succ f ih =>
    intro r out dd h
    cases r with
    | nil => simp [cleanLoop]
    | cons c rest =>
      have hrest : rest.length ≤ f := by simpa using h
      have htail : rest.tail.length ≤ f := by
        have := List.length_tail rest
        omega
      have hdrop : (rest.dropWhile (· ≠ '/')).length ≤ f :=
        le_trans (List.dropWhile_sublist _).length_le hrest
      conv_lhs => rw [cleanLoop]
      conv_rhs => rw [cleanLoop]
      simp only [ih rest _ _ hrest, ih rest.tail _ _ htail, ih _ _ _ hdrop]

/-- Any fuel that covers the unread part gives the result of `cleanRun`. -/
theorem cleanLoop_eq_cleanRun (rooted : Bool) (f : Nat) (r out : List Char) (dd : Nat)
    (h : r.length ≤ f) : cleanLoop rooted f r out dd = cleanRun rooted r out dd := by
  obtain ⟨k, rfl⟩ := Nat.exists_eq_add_of_le h
  induction k with
  | zero => rfl
  | succ k ih =>
    rw [← Nat.add_assoc, cleanLoop_succ rooted _ _ _ _ (Nat.le_add_right _ _)]
    exact ih (Nat.le_add_right _ _)

theorem cleanRun_nil (rooted : Bool) (out : List Char) (dd : Nat) :
    cleanRun rooted [] out dd = out := rfl

/-- One round of the loop, in terms of `cleanRun`. -/
theorem cleanRun_cons (rooted : Bool) (c : Char) (rest out : List Char) (dd : Nat) :
    cleanRun rooted (c :: rest) out dd =
      if c = '/' then cleanRun rooted rest out dd
      else if c = '.' ∧ (rest = [] ∨ rest.head? = some '/') then cleanRun rooted rest out dd
      else if c = '.' ∧ rest.head? = some '.' ∧
          (rest.tail = [] ∨ rest.tail.head? = some '/') then
        if out.length > dd then
          cleanRun rooted rest.tail (out.take (backtrack out dd (out.length - 1))) dd
        else if !rooted then
          cleanRun rooted rest.tail ((if out.length > 0 then out ++ ['/'] else out) ++ ['.', '.'])
            ((if out.length > 0 then out ++ ['/'] else out) ++ ['.', '.']).length
        else cleanRun rooted rest.tail out dd
      else
        cleanRun rooted (rest.dropWhile (· ≠ '/'))
          ((if (rooted && out.length != 1) || (!rooted && out.length != 0) then out ++ ['/']
            else out) ++ c :: rest.takeWhile (· ≠ '/')) dd := by
  have htail : rest.tail.length ≤ rest.length := by
    have := List.length_tail rest
    omega
  have hdrop : (rest.dropWhile (· ≠ '/')).length ≤ rest.length :=
    (List.dropWhile_sublist _).length_le
  rw [cleanRun, List.length_cons, cleanLoop]
  simp only [cleanLoop_eq_cleanRun rooted _ rest _ _ (le_refl _),
    cleanLoop_eq_cleanRun rooted _ rest.tail _ _ htail,
    cleanLoop_eq_cleanRun rooted _ _ _ _ hdrop]

end path

namespace path

theorem takeWhile_notSlash_append (s rest : List Char) (hs : '/' ∉ s)
    (hrest : rest = [] ∨ rest.head? = some '/') :
    (s ++ rest).takeWhile (· ≠ '/') = s := by
  have hall : ∀ a ∈ s, (decide (a ≠ '/')) = true := by
    intro a ha
    simp only [decide_eq_true_eq]
    rintro rfl
    exact hs ha
  rw [List.takeWhile_append_of_pos hall]
  rcases hrest with rfl | h
  · simp
  · cases rest with
    | nil => simp
    | cons d rest' =>
      simp only [List.head?_cons, Option.some.injEq] at h
      subst h
      simp

theorem dropWhile_notSlash_append (s rest : List Char) (hs : '/' ∉ s)
    (hrest : rest = [] ∨ rest.head? = some '/') :
    (s ++ rest).dropWhile (· ≠ '/') = rest := by
  have hall : ∀ a ∈ s, (decide (a ≠ '/')) = true := by
    intro a ha
    simp only [decide_eq_true_eq]
    rintro rfl
    exact hs ha
  rw [List.dropWhile_append_of_pos hall]
  rcases hrest with rfl | h
  · simp
  · cases rest with
    | nil => simp
    | cons d rest' =>
      simp only [List.head?_cons, Option.some.injEq] at h
      subst h
      simp

/-- A real path element followed by a slash or by the end of the path is copied
to the buffer, behind a separating slash where the buffer needs one. -/
theorem cleanRun_element (rooted : Bool) (s rest out : List Char) (dd : Nat)
    (hs : isElement s) (hrest : rest = [] ∨ rest.head? = some '/') :
    cleanRun rooted (s ++ rest) out dd =
      cleanRun rooted rest
        ((if (rooted && out.length != 1) || (!rooted && out.length != 0) then out ++ ['/']
          else out) ++ s) dd := by
  obtain ⟨hne, hslash, hdot, hdotdot⟩ := hs
  cases s with
  | nil => exact absurd rfl hne
  | cons c s' =>
    have hc : c ≠ '/' := fun h => hslash (h ▸ List.mem_cons_self _ _)
    have hs' : '/' ∉ s' := fun h => hslash (List.mem_cons_of_mem _ h)
    have h2 : ¬(c = '.' ∧ (s' ++ rest = [] ∨ (s' ++ rest).head? = some '/')) := by
      rintro ⟨rfl, h⟩
      cases s' with
      | nil => exact hdot rfl
      | cons d s'' =>
        rcases h with h | h
        · simp at h
        · simp only [List.cons_append, List.head?_cons, Option.some.injEq] at h
          exact hs' (h ▸ List.mem_cons_self _ _)
    have h3 : ¬(c = '.' ∧ (s' ++ rest).head? = some '.' ∧
        ((s' ++ rest).tail = [] ∨ (s' ++ rest).tail.head? = some '/')) := by
      rintro ⟨rfl, h, h'⟩
      cases s' with
      | nil =>
        rcases hrest with rfl | hr
        · simp at h
        · simp only [List.nil_append] at h
          rw [hr] at h
          exact absurd h (by decide)
      | cons d s'' =>
        simp only [List.cons_append, List.head?_cons, Option.some.injEq] at h
        subst h
        cases s'' with
        | nil => exact hdotdot rfl
        | cons e s3 =>
          simp only [List.cons_append, List.tail_cons, List.head?_cons, Option.some.injEq,
            reduceCtorEq, false_or] at h'
          exact hs' (h' ▸ List.mem_cons_of_mem _ (List.mem_cons_self _ _))
    rw [List.cons_append, cleanRun_cons, if_neg hc, if_neg h2, if_neg h3,
      takeWhile_notSlash_append s' rest hs' hrest, dropWhile_notSlash_append s' rest hs' hrest]

/-- Real path elements joined by single slashes pass through the loop unchanged. -/
theorem cleanRun_joinElems :
    ∀ (segs : List (List Char)), segs ≠ [] → (∀ s ∈ segs, isElement s) →
      ∀ (out : List Char) (dd : Nat),
        cleanRun false (joinElems segs) out dd =
          (if out.length != 0 then out ++ ['/'] else out) ++ joinElems segs := by
  intro segs
  induction segs with
  | nil => intro h; exact absurd rfl h
  | cons s t ih =>
    intro _ hall out dd
    have hs : isElement s := hall s (List.mem_cons_self _ _)
    cases t with
    | nil =>
      have := cleanRun_element false s [] out dd hs (Or.inl rfl)
      simpa [joinElems, cleanRun_nil] using this
    | cons s2 t2 =>
      have ht : ∀ x ∈ s2 :: t2, isElement x := fun x hx => hall x (List.mem_cons_of_mem _ hx)
      have hstep := cleanRun_element false s ('/' :: joinElems (s2 :: t2)) out dd hs
        (Or.inr rfl)
      have hlen : ((if (false && out.length != 1) || (!false && out.length != 0) then
          out ++ ['/'] else out) ++ s).length ≠ 0 := by
        have : s.length ≠ 0 := fun h => hs.1 (List.length_eq_zero.mp h)
        simp only [List.length_append]
        omega
      rw [joinElems, hstep, cleanRun_cons, if_pos rfl, ih (List.cons_ne_nil _ _) ht]
      simp only [bne_iff_ne, ne_eq, hlen, not_false_eq_true, if_true]
      simp
      exact List.cons_ne_nil _ _

theorem joinElems_ne_nil (s : List Char) (t : List (List Char)) (hs : s ≠ []) :
    joinElems (s :: t) ≠ [] := by
  cases t with
  | nil => simpa [joinElems] using hs
  | cons s2 t2 => simp [joinElems, hs]

theorem joinElems_head? (s : List Char) (t : List (List Char)) (hs : s ≠ []) :
    (joinElems (s :: t)).head? = s.head? := by
  cases s with
  | nil => exact absurd rfl hs
  | cons c s' => cases t <;> simp [joinElems]

/-- `path.Clean` leaves a relative path of real elements joined by single slashes
unchanged. -/
theorem cleanChars_joinElems (s : List Char) (t : List (List Char))
    (hall : ∀ x ∈ s :: t, isElement x) : cleanChars (joinElems (s :: t)) = joinElems (s :: t) := by
  have hs : isElement s := hall s (List.mem_cons_self _ _)
  have hne := joinElems_ne_nil s t hs.1
  have hhead : ¬ (joinElems (s :: t)).head? = some '/' := by
    rw [joinElems_head? s t hs.1]
    intro h
    exact hs.2.1 (List.mem_of_mem_head? h)
  have hlen : (joinElems (s :: t)).length ≠ 0 := fun h => hne (List.length_eq_zero.mp h)
  unfold cleanChars
  simp only [hne, if_false, hhead, decide_False, Bool.false_eq_true,
    cleanLoop_eq_cleanRun false _ _ _ _ (le_refl _),
    cleanRun_joinElems (s :: t) (List.cons_ne_nil _ _) hall, List.length_nil, bne_self_eq_false,
    List.nil_append, hlen]

end path

namespace path

/-- `path.Clean` never returns the empty string. -/
theorem cleanChars_ne_nil (p : List Char) : cleanChars p ≠ [] := by
  have key : ∀ out : List Char, (if out.length = 0 then ['.'] else out) ≠ [] := by
    intro out
    by_cases h : out.length = 0
    · simp [h]
    · rw [if_neg h]
      exact fun h' => h (by rw [h']; rfl)
  unfold cleanChars
  split
  · simp
  · exact key _

theorem Clean_ne_empty (p : String) : Clean p ≠ "" := by
  intro h
  exact cleanChars_ne_nil p.data (congrArg String.data h)

/-- A leading `./` in front of a slash is dropped: cleaning `.//v` is cleaning `v`
when `v` does not start with a slash. -/
theorem cleanChars_dot_slash_slash (v : List Char) (hv : v.head? ≠ some '/') :
    cleanChars ('.' :: '/' :: '/' :: v) = cleanChars v := by
  have h1 : cleanRun false ('.' :: '/' :: '/' :: v) [] 0 = cleanRun false v [] 0 := by
    rw [cleanRun_cons, if_neg (by decide), if_pos ⟨rfl, Or.inr rfl⟩, cleanRun_cons, if_pos rfl,
      cleanRun_cons, if_pos rfl]
  unfold cleanChars
  rw [if_neg (List.cons_ne_nil _ _)]
  simp only [List.head?_cons, Option.some.injEq, show ¬ ('.' = '/') by decide, decide_False,
    Bool.false_eq_true, if_false, cleanLoop_eq_cleanRun false _ _ _ _ (le_refl _), h1, hv]
  by_cases hnil : v = []
  · subst hnil
    simp [cleanRun_nil]
  · simp [hnil]

theorem joinElems_append_slash (a b : List Char) (rest : List (List Char)) :
    joinElems ((a ++ '/' :: b) :: rest) = a ++ '/' :: joinElems (b :: rest) := by
  cases rest with
  | nil => simp [joinElems]
  | cons s t => simp [joinElems]

/-- The characters of `strings.Join(e :: es, "/")`. -/
theorem joinSlash_data : ∀ (es : List String) (e : String),
    (joinSlash e es).data = joinElems (e.data :: es.map String.data) := by
  intro es
  induction es with
  | nil => intro e; rfl
  | cons x xs ih =>
    intro e
    have hstep : joinSlash e (x :: xs) = joinSlash (e ++ "/" ++ x) xs := rfl
    have hslash : ("/" : String).data = ['/'] := rfl
    rw [hstep, ih, String.data_append, String.data_append, hslash, List.append_assoc,
      List.singleton_append, joinElems_append_slash, List.map_cons]
    rfl

theorem joinSlash_joinSlash (e : String) (es fs : List String) :
    joinSlash (joinSlash e es) fs = joinSlash e (es ++ fs) := by
  simp [joinSlash, List.foldl_append]

theorem Join_cons_of_ne (e : String) (es : List String) (h : e ≠ "") :
    Join (e :: es) = Clean (joinSlash e es) := by
  unfold Join
  simp [List.dropWhile_cons, h]

/-- Joining real path elements is joining them with single slashes: there is
nothing to clean. -/
theorem Join_elements (e : String) (es : List String)
    (hall : ∀ x ∈ e :: es, isElement x.data) : Join (e :: es) = joinSlash e es := by
  have he : e ≠ "" := fun h => (hall e (List.mem_cons_self _ _)).1 (congrArg String.data h)
  rw [Join_cons_of_ne e es he]
  apply String.ext
  show cleanChars (joinSlash e es).data = (joinSlash e es).data
  rw [joinSlash_data]
  apply cleanChars_joinElems
  intro x hx
  rw [← List.map_cons, List.mem_map] at hx
  obtain ⟨y, hy, rfl⟩ := hx
  exact hall y hy

end path

/-! ## Helper lemmas: the two directories -/

theorem String.append_assoc_data (a b c : String) : a ++ b ++ c = a ++ (b ++ c) := by
  apply String.ext
  simp [String.data_append, List.append_assoc]

theorem getClangPrebuiltDir_eq_Clean (cfg : ClangDefaults) (ctx : LoadHookContext) :
    getClangPrebuiltDir cfg ctx = path.Clean ("./" ++ "/" ++ prebuiltsVersion cfg ctx) :=
  path.Join_cons_of_ne "./" [prebuiltsVersion cfg ctx] (by decide)

theorem getClangPrebuiltDir_ne_empty (cfg : ClangDefaults) (ctx : LoadHookContext) :
    getClangPrebuiltDir cfg ctx ≠ "" := by
  rw [getClangPrebuiltDir_eq_Clean]
  exact path.Clean_ne_empty _

theorem getClangResourceDir_eq_Clean (cfg : ClangDefaults) (ctx : LoadHookContext) :
    getClangResourceDir cfg ctx =
      path.Clean (path.joinSlash (getClangPrebuiltDir cfg ctx)
        ["lib64", "clang", releaseVersion cfg ctx, "lib", "linux"]) :=
  path.Join_cons_of_ne _ _ (getClangPrebuiltDir_ne_empty cfg ctx)

theorem getClangResourceDir_ne_empty (cfg : ClangDefaults) (ctx : LoadHookContext) :
    getClangResourceDir cfg ctx ≠ "" := by
  rw [getClangResourceDir_eq_Clean]
  exact path.Clean_ne_empty _

/-- The prebuilt directory is the cleaned version string when that string does
not start with a slash. -/
theorem getClangPrebuiltDir_relative (cfg : ClangDefaults) (ctx : LoadHookContext)
    (h : (prebuiltsVersion cfg ctx).data.head? ≠ some '/') :
    getClangPrebuiltDir cfg ctx = path.Clean (prebuiltsVersion cfg ctx) := by
  rw [getClangPrebuiltDir_eq_Clean]
  apply String.ext
  show path.cleanChars ("./" ++ "/" ++ prebuiltsVersion cfg ctx).data =
    path.cleanChars (prebuiltsVersion cfg ctx).data
  rw [String.data_append]
  exact path.cleanChars_dot_slash_slash _ h

/-- A non-empty string without a slash is a clean path. -/
theorem path.Clean_single (v : String) (hne : v ≠ "") (hslash : '/' ∉ v.data) :
    path.Clean v = v := by
  by_cases h1 : v = "."
  · subst h1; decide
  by_cases h2 : v = ".."
  · subst h2; decide
  have hel : path.isElement v.data :=
    ⟨fun h => hne (String.ext h), hslash, fun h => h1 (String.ext h), fun h => h2 (String.ext h)⟩
  apply String.ext
  have := path.cleanChars_joinElems v.data [] (by simpa using hel)
  simpa [path.joinElems] using this

theorem head?_ne_slash_of_not_mem (l : List Char) (h : '/' ∉ l) : l.head? ≠ some '/' :=
  fun h' => h (List.mem_of_mem_head? h')

/-- For element versions the resource directory is the six elements joined by
slashes. -/
theorem getClangResourceDir_elements (cfg : ClangDefaults) (ctx : LoadHookContext)
    (hV : path.isElement (prebuiltsVersion cfg ctx).data)
    (hR : path.isElement (releaseVersion cfg ctx).data) :
    getClangPrebuiltDir cfg ctx = prebuiltsVersion cfg ctx ∧
    getClangResourceDir cfg ctx =
      path.joinSlash (prebuiltsVersion cfg ctx)
        ["lib64", "clang", releaseVersion cfg ctx, "lib", "linux"] := by
  have hdir : getClangPrebuiltDir cfg ctx = prebuiltsVersion cfg ctx := by
    rw [getClangPrebuiltDir_relative cfg ctx (head?_ne_slash_of_not_mem _ hV.2.1)]
    exact path.Clean_single _ (fun h => hV.1 (congrArg String.data h)) hV.2.1
  refine ⟨hdir, ?_⟩
  unfold getClangResourceDir
  simp only [hdir]
  apply path.Join_elements
  intro x hx
  simp only [List.mem_cons, List.mem_singleton, List.not_mem_nil, or_false] at hx
  rcases hx with rfl | rfl | rfl | rfl | rfl | rfl
  · exact hV
  · decide
  · decide
  · exact hR
  · decide
  · decide

/-- For element versions, joining the resource directory with further real
elements appends them behind single slashes. -/
theorem Join_getClangResourceDir_elements (cfg : ClangDefaults) (ctx : LoadHookContext)
    (hV : path.isElement (prebuiltsVersion cfg ctx).data)
    (hR : path.isElement (releaseVersion cfg ctx).data)
    (fs : List String) (hfs : ∀ x ∈ fs, path.isElement x.data) :
    path.Join (getClangResourceDir cfg ctx :: fs) =
      path.joinSlash (getClangResourceDir cfg ctx) fs := by
  rw [path.Join_cons_of_ne _ _ (getClangResourceDir_ne_empty cfg ctx),
    (getClangResourceDir_elements cfg ctx hV hR).2, path.joinSlash_joinSlash,
    ← path.Join_cons_of_ne _ _ (fun h => hV.1 (congrArg String.data h))]
  apply path.Join_elements
  intro x hx
  simp only [List.mem_cons, List.mem_append, List.mem_singleton, List.not_mem_nil,
    or_false] at hx
  rcases hx with rfl | (rfl | rfl | rfl | rfl | rfl) | hx
  · exact hV
  · decide
  · decide
  · exact hR
  · decide
  · decide
  · exact hfs x hx

theorem isElement_append_ext (b : List Char) (e : List Char) (hb : '/' ∉ b) (he : '/' ∉ e)
    (hlen : 2 ≤ e.length) (hlast : e.getLast? ≠ some '.') : path.isElement (b ++ e) := by
  refine ⟨?_, ?_, ?_, ?_⟩
  · intro h
    have := congrArg List.length h
    simp only [List.length_append, List.length_cons, List.length_nil] at this
    omega
  · simp [hb, he]
  · intro h
    have := congrArg List.length h
    simp only [List.length_append, List.length_cons, List.length_nil] at this
    omega
  · intro h
    have hl := congrArg List.length h
    simp only [List.length_append, List.length_cons, List.length_nil] at hl
    have hb0 : b = [] := List.length_eq_zero.mp (by omega)
    subst hb0
    simp only [List.nil_append] at h
    subst h
    exact hlast rfl

/-! ## Helper lemmas: `strings.Replace` -/

namespace strings

/-- No index: the string does not contain `sub`. -/
theorem indexChars_none (sub : List Char) :
    ∀ s : List Char, indexChars sub s = none → ∀ a b : List Char, s ≠ a ++ sub ++ b := by
  intro s
  induction s with
  | nil =>
    intro h a b hab
    have hsub : sub = [] := by
      have h1 := congrArg List.length hab
      simp only [List.length_nil, List.length_append] at h1
      exact List.length_eq_zero.mp (by omega)
    simp [indexChars, hsub] at h
  | cons c cs ih =>
    intro h a b hab
    unfold indexChars at h
    split at h
    · exact absurd h (by simp)
    · rename_i hne
      have hcs : indexChars sub cs = none := by
        cases hidx : indexChars sub cs with
        | none => rfl
        | some j => simp [hidx] at h
      cases a with
      | nil =>
        apply hne
        rw [hab]
        simp
      | cons x a' =>
        simp only [List.cons_append, List.cons.injEq] at hab
        exact ih hcs a' b hab.2

/-- An index `j`: `sub` stands at `j`, and at no earlier position. -/
theorem indexChars_some (sub : List Char) :
    ∀ (s : List Char) (j : Nat), indexChars sub s = some j →
      s.take j ++ sub ++ s.drop (j + sub.length) = s ∧
      ∀ a b : List Char, s = a ++ sub ++ b → j ≤ a.length := by
  intro s
  induction s with
  | nil =>
    intro j h
    unfold indexChars at h
    split at h
    · rename_i hsub
      simp only [Option.some.injEq] at h
      subst h
      subst hsub
      simp
    · exact absurd h (by simp)
  | cons c cs ih =>
    intro j h
    unfold indexChars at h
    split at h
    · rename_i htake
      simp only [Option.some.injEq] at h
      subst h
      refine ⟨?_, fun _ _ _ => Nat.zero_le _⟩
      simp only [List.take_zero, List.nil_append, Nat.zero_add]
      have hsplit := List.take_append_drop sub.length (c :: cs)
      rw [htake] at hsplit
      exact hsplit
    · rename_i hne
      cases hidx : indexChars sub cs with
      | none => simp [hidx] at h
      | some j' =>
        simp only [hidx, Option.map_some', Option.some.injEq] at h
        subst h
        obtain ⟨h1, h2⟩ := ih j' hidx
        constructor
        · have : j' + 1 + sub.length = (j' + sub.length) + 1 := by omega
          rw [this, List.take_succ_cons, List.drop_succ_cons, List.cons_append, List.cons_append,
            h1]
        · intro a b hab
          cases a with
          | nil =>
            exfalso
            apply hne
            rw [hab]
            simp
          | cons x a' =>
            simp only [List.cons_append, List.cons.injEq] at hab
            have := h2 a' b hab.2
            simp only [List.length_cons]
            omega

/-- With `n = 1` and an empty replacement, the loop removes the first occurrence
of `old`. -/
theorem replaceChars_one_first (old a b : List Char)
    (hfirst : ∀ a' b' : List Char, a ++ old ++ b = a' ++ old ++ b' → a.length ≤ a'.length) :
    replaceChars old [] 1 (a ++ old ++ b) = a ++ b := by
  unfold replaceChars
  cases hidx : indexChars old (a ++ old ++ b) with
  | none => exact absurd rfl (indexChars_none old _ hidx a b)
  | some j =>
    obtain ⟨h1, h2⟩ := indexChars_some old _ j hidx
    have hj : j = a.length :=
      Nat.le_antisymm (h2 a b rfl) (by simpa using hfirst _ _ h1.symm)
    subst hj
    simp [replaceChars]

theorem replaceChars_one_none (old s : List Char) (h : ∀ a b : List Char, s ≠ a ++ old ++ b) :
    replaceChars old [] 1 s = s := by
  unfold replaceChars
  cases hidx : indexChars old s with
  | none => rfl
  | some j => exact absurd (indexChars_some old s j hidx).1.symm (h _ _)

theorem Replace_prebuilt_data (name : String) :
    (Replace name "prebuilt_" "" 1).data =
      replaceChars ("prebuilt_" : String).data [] 1 name.data := by
  unfold Replace
  rw [if_neg (by decide)]

/-- `strings.Replace(name, "prebuilt_", "", 1)` removes the first occurrence of
`prebuilt_` and nothing else. -/
theorem Replace_prebuilt_first (a b : String)
    (hfirst : ∀ a' b' : String, a ++ "prebuilt_" ++ b = a' ++ "prebuilt_" ++ b' →
      a.length ≤ a'.length) :
    Replace (a ++ "prebuilt_" ++ b) "prebuilt_" "" 1 = a ++ b := by
  apply String.ext
  rw [Replace_prebuilt_data, String.data_append, String.data_append, String.data_append]
  apply replaceChars_one_first
  intro a' b' h
  have := hfirst ⟨a'⟩ ⟨b'⟩ (String.ext (by simp only [String.data_append]; exact h))
  exact this

theorem Replace_prebuilt_none (name : String)
    (h : ∀ a b : String, name ≠ a ++ "prebuilt_" ++ b) :
    Replace name "prebuilt_" "" 1 = name := by
  apply String.ext
  rw [Replace_prebuilt_data]
  apply replaceChars_one_none
  intro a b hab
  exact h ⟨a⟩ ⟨b⟩ (String.ext (by simp only [String.data_append]; exact hab))

end strings

/-! ## Helper lemmas: cleaning up to the last element -/

namespace path

theorem takeWhile_notSlash_of_mem (rest x : List Char) (h : '/' ∈ rest) :
    (rest ++ x).takeWhile (· ≠ '/') = rest.takeWhile (· ≠ '/') ∧
    (rest ++ x).dropWhile (· ≠ '/') = rest.dropWhile (· ≠ '/') ++ x := by
  induction rest with
  | nil => exact absurd h (List.not_mem_nil _)
  | cons r rest ih =>
    by_cases hr : r = '/'
    · subst hr
      simp
    · have hmem : '/' ∈ rest := by
        rcases List.mem_cons.mp h with h' | h'
        · exact absurd h'.symm hr
        · exact h'
      obtain ⟨h1, h2⟩ := ih hmem
      simp only [List.cons_append]
      rw [List.takeWhile_cons_of_pos (by simpa using hr),
        List.takeWhile_cons_of_pos (by simpa using hr),
        List.dropWhile_cons_of_pos (by simpa using hr),
        List.dropWhile_cons_of_pos (by simpa using hr), h1, h2]
      exact ⟨rfl, rfl⟩

theorem getLast?_cons_of_ne_nil (c : Char) (rest : List Char) (h : rest ≠ []) :
    (c :: rest).getLast? = rest.getLast? := by
  cases rest with
  | nil => exact absurd rfl h
  | cons d t => simp [List.getLast?_cons_cons]

theorem dropWhile_notSlash_getLast? (rest : List Char) (h : rest.getLast? = some '/') :
    (rest.dropWhile (· ≠ '/')).getLast? = some '/' := by
  induction rest with
  | nil => simp at h
  | cons r rest ih =>
    by_cases hr : r = '/'
    · subst hr
      rw [List.dropWhile_cons_of_neg (by simp)]
      exact h
    · rw [List.dropWhile_cons_of_pos (by simpa using hr)]
      apply ih
      cases rest with
      | nil =>
        simp only [List.getLast?_singleton, Option.some.injEq] at h
        exact absurd h hr
      | cons d t => simpa [List.getLast?_cons_cons] using h

/-- A part of the path that ends with a slash is processed independently of what
follows it: it only determines the buffer and the `dotdot` mark with which the
loop reaches the rest. -/
theorem cleanRun_prefix (rooted : Bool) :
    ∀ (n : Nat) (pre out : List Char) (dd : Nat), pre.length ≤ n →
      (pre = [] ∨ pre.getLast? = some '/') →
      ∃ (out1 : List Char) (dd1 : Nat), ∀ x : List Char,
        cleanRun rooted (pre ++ x) out dd = cleanRun rooted x out1 dd1 := by
  intro n
  induction n with
  | zero =>
    intro pre out dd hlen _
    have hpre : pre = [] := List.length_eq_zero.mp (Nat.le_zero.mp hlen)
    subst hpre
    exact ⟨out, dd, fun x => rfl⟩
  | succ n ih =>
    intro pre out dd hlen hlast
    cases pre with
    | nil => exact ⟨out, dd, fun x => rfl⟩
    | cons c rest =>
      have hrestlen : rest.length ≤ n := by simpa using hlen
      have hlast' : (c :: rest).getLast? = some '/' := by
        rcases hlast with h | h
        · exact absurd h (List.cons_ne_nil _ _)
        · exact h
      by_cases hc : c = '/'
      · have hrest : rest = [] ∨ rest.getLast? = some '/' := by
          by_cases hnil : rest = []
          · exact Or.inl hnil
          · exact Or.inr (by rw [← getLast?_cons_of_ne_nil c rest hnil]; exact hlast')
        obtain ⟨o, k, hk⟩ := ih rest out dd hrestlen hrest
        exact ⟨o, k, fun x => by rw [List.cons_append, cleanRun_cons, if_pos hc]; exact hk x⟩
      · cases rest with
        | nil =>
          simp only [List.getLast?_singleton, Option.some.injEq] at hlast'
          exact absurd hlast' hc
        | cons d rest' =>
          have hrlast : (d :: rest').getLast? = some '/' := by
            rw [← getLast?_cons_of_ne_nil c (d :: rest') (List.cons_ne_nil _ _)]
            exact hlast'
          have hcond2 : ∀ x : List Char,
              (c = '.' ∧ ((d :: rest') ++ x = [] ∨ ((d :: rest') ++ x).head? = some '/')) ↔
                (c = '.' ∧ d = '/') := by
            intro x
            simp
          have hcond3 : ∀ x : List Char,
              (c = '.' ∧ ((d :: rest') ++ x).head? = some '.' ∧
                (((d :: rest') ++ x).tail = [] ∨ ((d :: rest') ++ x).tail.head? = some '/')) ↔
                (c = '.' ∧ d = '.' ∧ rest'.head? = some '/') := by
            intro x
            cases rest' with
            | nil =>
              simp only [List.getLast?_singleton, Option.some.injEq] at hrlast
              subst hrlast
              simp
            | cons e t => simp
          by_cases h2 : c = '.' ∧ d = '/'
          · obtain ⟨o, k, hk⟩ := ih (d :: rest') out dd hrestlen (Or.inr hrlast)
            exact ⟨o, k, fun x => by
              rw [List.cons_append, cleanRun_cons, if_neg hc, if_pos ((hcond2 x).2 h2)]
              exact hk x⟩
          by_cases h3 : c = '.' ∧ d = '.' ∧ rest'.head? = some '/'
          · have hne' : rest' ≠ [] := by
              intro h
              rw [h] at h3
              simp at h3
            have hlast3 : rest'.getLast? = some '/' := by
              rw [← getLast?_cons_of_ne_nil d rest' hne']
              exact hrlast
            have hlen3 : rest'.length ≤ n := by
              simp only [List.length_cons] at hrestlen
              omega
            have htail : ∀ x : List Char, ((d :: rest') ++ x).tail = rest' ++ x := fun x => rfl
            by_cases hgt : out.length > dd
            · obtain ⟨o, k, hk⟩ :=
                ih rest' (out.take (backtrack out dd (out.length - 1))) dd hlen3 (Or.inr hlast3)
              exact ⟨o, k, fun x => by
                rw [List.cons_append, cleanRun_cons, if_neg hc,
                  if_neg (fun h => h2 ((hcond2 x).1 h)), if_pos ((hcond3 x).2 h3), if_pos hgt,
                  htail]
                exact hk x⟩
            · by_cases hroot : (!rooted) = true
              · obtain ⟨o, k, hk⟩ :=
                  ih rest' ((if out.length > 0 then out ++ ['/'] else out) ++ ['.', '.'])
                    ((if out.length > 0 then out ++ ['/'] else out) ++ ['.', '.']).length hlen3
                    (Or.inr hlast3)
                exact ⟨o, k, fun x => by
                  rw [List.cons_append, cleanRun_cons, if_neg hc,
                    if_neg (fun h => h2 ((hcond2 x).1 h)), if_pos ((hcond3 x).2 h3),
                    if_neg hgt, if_pos hroot, htail]
                  exact hk x⟩
              · obtain ⟨o, k, hk⟩ := ih rest' out dd hlen3 (Or.inr hlast3)
                exact ⟨o, k, fun x => by
                  rw [List.cons_append, cleanRun_cons, if_neg hc,
                    if_neg (fun h => h2 ((hcond2 x).1 h)), if_pos ((hcond3 x).2 h3),
                    if_neg hgt, if_neg hroot, htail]
                  exact hk x⟩
          · have hmem : '/' ∈ d :: rest' := List.mem_of_mem_getLast? hrlast
            have hdl : ((d :: rest').dropWhile (· ≠ '/')).length ≤ n :=
              le_trans (List.dropWhile_sublist _).length_le hrestlen
            obtain ⟨o, k, hk⟩ :=
              ih ((d :: rest').dropWhile (· ≠ '/'))
                ((if (rooted && out.length != 1) || (!rooted && out.length != 0) then
                    out ++ ['/'] else out) ++ c :: (d :: rest').takeWhile (· ≠ '/')) dd hdl
                (Or.inr (dropWhile_notSlash_getLast? _ hrlast))
            exact ⟨o, k, fun x => by
              rw [List.cons_append, cleanRun_cons, if_neg hc,
                if_neg (fun h => h2 ((hcond2 x).1 h)), if_neg (fun h => h3 ((hcond3 x).1 h)),
                (takeWhile_notSlash_of_mem (d :: rest') x hmem).1,
                (takeWhile_notSlash_of_mem (d :: rest') x hmem).2]
              exact hk x⟩

/-- Every path splits into a part that is empty or ends with a slash and a last
part without a slash. -/
theorem exists_last_element (l : List Char) :
    ∃ pre w : List Char, l = pre ++ w ∧ (pre = [] ∨ pre.getLast? = some '/') ∧ '/' ∉ w := by
  induction l using List.reverseRecOn with
  | nil => exact ⟨[], [], rfl, Or.inl rfl, List.not_mem_nil _⟩
  | append_singleton l c ih =>
    by_cases hc : c = '/'
    · subst hc
      exact ⟨l ++ ['/'], [], by simp, Or.inr (by simp), List.not_mem_nil _⟩
    · obtain ⟨pre, w, hl, hpre, hw⟩ := ih
      refine ⟨pre, w ++ [c], by rw [hl, List.append_assoc], hpre, ?_⟩
      simp only [List.mem_append, List.mem_singleton, not_or]
      exact ⟨hw, fun h => hc h.symm⟩

end path

namespace path

theorem cleanChars_cons_slash (t : List Char) :
    cleanChars ('/' :: t) =
      if (cleanRun true t ['/'] 1).length = 0 then ['.'] else cleanRun true t ['/'] 1 := by
  unfold cleanChars
  rw [if_neg (List.cons_ne_nil _ _)]
  simp only [List.head?_cons, decide_True, if_true, List.tail_cons, List.length_cons,
    cleanLoop_eq_cleanRun true _ t _ _ (Nat.le_succ _)]

theorem cleanChars_cons_of_ne (c : Char) (t : List Char) (hc : c ≠ '/') :
    cleanChars (c :: t) =
      if (cleanRun false (c :: t) [] 0).length = 0 then ['.']
      else cleanRun false (c :: t) [] 0 := by
  unfold cleanChars
  rw [if_neg (List.cons_ne_nil _ _)]
  simp only [List.head?_cons, Option.some.injEq, hc, decide_False, Bool.false_eq_true, if_false,
    cleanLoop_eq_cleanRun false _ (c :: t) _ _ (le_refl _)]

theorem getLast?_append_slash_cons (l pre : List Char) (hpre : pre = [] ∨ pre.getLast? = some '/') :
    (l ++ '/' :: pre).getLast? = some '/' := by
  rw [List.getLast?_append_of_ne_nil _ (List.cons_ne_nil _ _)]
  rcases hpre with rfl | h
  · rfl
  · by_cases hnil : pre = []
    · subst hnil; rfl
    · rw [getLast?_cons_of_ne_nil _ _ hnil, h]

/-- Cleaning `dir/name.ext` for a non-empty `dir`: the result ends with the
extension, and what precedes the extension does not depend on it. -/
theorem cleanChars_stem (c : Char) (dir name : List Char) :
    ∃ stem : List Char, ∀ e : List Char, '/' ∉ e → 2 ≤ e.length → e.getLast? ≠ some '.' →
      cleanChars ((c :: dir) ++ '/' :: (name ++ e)) = stem ++ e := by
  obtain ⟨pre, w, hname, hpre, hw⟩ := exists_last_element name
  have hlast := getLast?_append_slash_cons dir pre hpre
  have hsplit : ∀ e : List Char, dir ++ '/' :: (name ++ e) = (dir ++ '/' :: pre) ++ (w ++ e) := by
    intro e
    rw [hname]
    simp
  have hnonempty : ∀ (o s : List Char) (b : Bool), s ≠ [] →
      (if ((if b then o ++ ['/'] else o) ++ s).length = 0 then ['.']
        else (if b then o ++ ['/'] else o) ++ s) = (if b then o ++ ['/'] else o) ++ s := by
    intro o s b hs
    rw [if_neg]
    intro h
    exact hs (List.append_eq_nil.mp (List.length_eq_zero.mp h)).2
  by_cases hc : c = '/'
  · subst hc
    obtain ⟨o, k, hk⟩ := cleanRun_prefix true _ (dir ++ '/' :: pre) ['/'] 1 (le_refl _)
      (Or.inr hlast)
    refine ⟨(if (true && o.length != 1) || (!true && o.length != 0) then o ++ ['/'] else o) ++ w,
      ?_⟩
    intro e he1 he2 he3
    have hel := isElement_append_ext w e hw he1 he2 he3
    have hrun := cleanRun_element true (w ++ e) [] o k hel (Or.inl rfl)
    rw [List.append_nil, cleanRun_nil] at hrun
    rw [List.cons_append, cleanChars_cons_slash, hsplit, hk, hrun, hnonempty _ _ _ hel.1,
      List.append_assoc]
  · obtain ⟨o, k, hk⟩ := cleanRun_prefix false _ (c :: (dir ++ '/' :: pre)) [] 0 (le_refl _)
      (Or.inr (by rw [getLast?_cons_of_ne_nil _ _ (by simp)]; exact hlast))
    refine ⟨(if (false && o.length != 1) || (!false && o.length != 0) then o ++ ['/'] else o) ++ w,
      ?_⟩
    intro e he1 he2 he3
    have hel := isElement_append_ext w e hw he1 he2 he3
    have hrun := cleanRun_element false (w ++ e) [] o k hel (Or.inl rfl)
    rw [List.append_nil, cleanRun_nil] at hrun
    have hk' := hk (w ++ e)
    rw [List.cons_append] at hk'
    rw [List.cons_append, cleanChars_cons_of_ne _ _ hc, hsplit, hk', hrun, hnonempty _ _ _ hel.1,
      List.append_assoc]

end path

/-- The two runtime paths share their stem: joining a non-empty directory with
`base.a` and with `base.so` gives the same string up to the extension. -/
theorem path.Join_stem (dir base : String) (hdir : dir ≠ "") :
    ∃ stem : String, path.Join [dir, base ++ ".a"] = stem ++ ".a" ∧
      path.Join [dir, base ++ ".so"] = stem ++ ".so" := by
  have hd : dir.data ≠ [] := fun h => hdir (String.ext h)
  obtain ⟨c, t, hct⟩ := List.exists_cons_of_ne_nil hd
  obtain ⟨stem, hstem⟩ := path.cleanChars_stem c t base.data
  have hdata : ∀ e : String, (path.joinSlash dir [base ++ e]).data =
      (c :: t) ++ '/' :: (base.data ++ e.data) := by
    intro e
    show (dir ++ "/" ++ (base ++ e)).data = _
    rw [String.data_append, String.data_append, String.data_append, hct]
    simp
  refine ⟨⟨stem⟩, ?_, ?_⟩
  · rw [path.Join_cons_of_ne _ _ hdir]
    apply String.ext
    show path.cleanChars _ = _
    rw [hdata, String.data_append]
    exact hstem _ (by decide) (by decide) (by decide)
  · rw [path.Join_cons_of_ne _ _ hdir]
    apply String.ext
    show path.cleanChars _ = _
    rw [hdata, String.data_append]
    exact hstem _ (by decide) (by decide) (by decide)

/-! ## Helper lemmas: the artifact path layout -/

theorem layout_arch_string (V R sub B : String) :
    path.joinSlash V ["lib64", "clang", R, "lib", "linux", sub, B ++ ".a"] =
      V ++ "/lib64/clang/" ++ R ++ "/lib/linux/" ++ sub ++ "/" ++ B ++ ".a" := by
  have h1 : ("/lib64/clang/" : String) = "/" ++ "lib64" ++ "/" ++ "clang" ++ "/" := by decide
  have h2 : ("/lib/linux/" : String) = "/" ++ "lib" ++ "/" ++ "linux" ++ "/" := by decide
  rw [h1, h2]
  simp only [path.joinSlash, List.foldl, String.append_assoc_data]

theorem layout_runtime_string (V R F : String) :
    path.joinSlash V ["lib64", "clang", R, "lib", "linux", F] =
      V ++ "/lib64/clang/" ++ R ++ "/lib/linux" ++ "/" ++ F := by
  have h1 : ("/lib64/clang/" : String) = "/" ++ "lib64" ++ "/" ++ "clang" ++ "/" := by decide
  have h2 : ("/lib/linux" : String) = "/" ++ "lib" ++ "/" ++ "linux" := by decide
  rw [h1, h2]
  simp only [path.joinSlash, List.foldl, String.append_assoc_data]

theorem isElement_specSubdirFor (a : Arch) : path.isElement a.specSubdirFor.data := by
  cases a <;> decide

theorem isElement_append_a (B : String) (hB : '/' ∉ B.data) :
    path.isElement (B ++ ".a").data := by
  rw [String.data_append]
  exact isElement_append_ext _ _ hB (by decide) (by decide) (by decide)

theorem isElement_append_so (B : String) (hB : '/' ∉ B.data) :
    path.isElement (B ++ ".so").data := by
  rw [String.data_append]
  exact isElement_append_ext _ _ hB (by decide) (by decide) (by decide)

/-- For element versions, the resource directory joined with further elements,
spelled out from the version on. -/
theorem Join_getClangResourceDir_joinSlash (cfg : ClangDefaults) (ctx : LoadHookContext)
    (hV : path.isElement (prebuiltsVersion cfg ctx).data)
    (hR : path.isElement (releaseVersion cfg ctx).data)
    (fs : List String) (hfs : ∀ x ∈ fs, path.isElement x.data) :
    path.Join (getClangResourceDir cfg ctx :: fs) =
      path.joinSlash (getClangPrebuiltDir cfg ctx)
        (["lib64", "clang", releaseVersion cfg ctx, "lib", "linux"] ++ fs) := by
  rw [Join_getClangResourceDir_elements cfg ctx hV hR fs hfs,
    (getClangResourceDir_elements cfg ctx hV hR).2, path.joinSlash_joinSlash,
    (getClangResourceDir_elements cfg ctx hV hR).1]

/-! ## Helper lemmas: the include directory and the two base names -/

theorem layout_include_string (V : String) :
    path.joinSlash V ["prebuilt_include", "llvm", "lib", "Fuzzer"] =
      V ++ "/prebuilt_include/llvm/lib/Fuzzer" := by
  have h1 : ("/prebuilt_include/llvm/lib/Fuzzer" : String) =
      "/" ++ "prebuilt_include" ++ "/" ++ "llvm" ++ "/" ++ "lib" ++ "/" ++ "Fuzzer" := by decide
  rw [h1]
  simp only [path.joinSlash, List.foldl, String.append_assoc_data]

theorem strings.TrimPrefix_prebuilt_append (s : String) :
    strings.TrimPrefix ("prebuilt_" ++ s) "prebuilt_" = s := by
  have hdata : ("prebuilt_" ++ s).data = ("prebuilt_" : String).data ++ s.data :=
    String.data_append _ _
  have hp : strings.HasPrefix ("prebuilt_" ++ s) "prebuilt_" = true := by
    simp only [strings.HasPrefix, hdata, List.length_append, Bool.and_eq_true, decide_eq_true_eq]
    exact ⟨Nat.le_add_right _ _, List.take_left' rfl⟩
  unfold strings.TrimPrefix
  rw [if_pos hp]
  apply String.ext
  show ("prebuilt_" ++ s).data.drop ("prebuilt_" : String).data.length = s.data
  rw [hdata]
  exact List.drop_left' rfl

theorem strings.TrimPrefix_prebuilt_none (name : String)
    (h : ∀ a b : String, name ≠ a ++ "prebuilt_" ++ b) :
    strings.TrimPrefix name "prebuilt_" = name := by
  unfold strings.TrimPrefix
  split
  · rename_i hp
    exfalso
    simp only [strings.HasPrefix, Bool.and_eq_true, decide_eq_true_eq] at hp
    apply h "" ⟨name.data.drop ("prebuilt_" : String).data.length⟩
    apply String.ext
    simp only [String.data_append]
    have hsplit := List.take_append_drop ("prebuilt_" : String).data.length name.data
    rw [hp.2] at hsplit
    rw [← hsplit]
    simp
  · rfl

/-! ## Helper lemmas: relative paths stay relative -/

namespace path

theorem head?_append_of_head? (a b : List Char) (ha : a ≠ []) : (a ++ b).head? = a.head? := by
  cases a with
  | nil => exact absurd rfl ha
  | cons c t => rfl

theorem head?_take_ne_slash (out : List Char) (k : Nat) (h : out.head? ≠ some '/') :
    (out.take k).head? ≠ some '/' := by
  cases out with
  | nil => simp
  | cons c t =>
    cases k with
    | zero => simp
    | succ k => simpa using h

/-- Without a leading slash in the path, the loop never writes a slash at the
start of the buffer. -/
theorem cleanRun_head?_ne_slash :
    ∀ (n : Nat) (r out : List Char) (dd : Nat), r.length ≤ n → out.head? ≠ some '/' →
      (cleanRun false r out dd).head? ≠ some '/' := by
  intro n
  induction n with
  | zero =>
    intro r out dd hlen hout
    have hr : r = [] := List.length_eq_zero.mp (Nat.le_zero.mp hlen)
    subst hr
    exact hout
  | succ n ih =>
    intro r out dd hlen hout
    cases r with
    | nil => exact hout
    | cons c rest =>
      have hrest : rest.length ≤ n := by simpa using hlen
      have htail : rest.tail.length ≤ n := by
        have := List.length_tail rest
        omega
      have hdrop : (rest.dropWhile (· ≠ '/')).length ≤ n :=
        le_trans (List.dropWhile_sublist _).length_le hrest
      rw [cleanRun_cons]
      split
      · exact ih rest out dd hrest hout
      · rename_i hc
        split
        · exact ih rest out dd hrest hout
        · split
          · split
            · exact ih _ _ _ htail (head?_take_ne_slash out _ hout)
            · split
              · apply ih _ _ _ htail
                by_cases hnil : out = []
                · subst hnil
                  simp
                · have hpos : out.length > 0 := List.length_pos.mpr hnil
                  rw [if_pos hpos, List.append_assoc, head?_append_of_head? _ _ hnil]
                  exact hout
              · exact ih _ _ _ htail hout
          · apply ih _ _ _ hdrop
            by_cases hnil : out = []
            · subst hnil
              have hfalse : ((false && ([] : List Char).length != 1) ||
                  (!false && ([] : List Char).length != 0)) = false := by decide
              rw [hfalse, if_neg (by decide), List.nil_append, List.head?_cons]
              exact fun h => hc (Option.some.inj h)
            · have hne : (if (false && out.length != 1) || (!false && out.length != 0) then
                  out ++ ['/'] else out) ≠ [] := by
                split
                · simp
                · exact hnil
              have hhead : (if (false && out.length != 1) || (!false && out.length != 0) then
                  out ++ ['/'] else out).head? = out.head? := by
                split
                · exact head?_append_of_head? _ _ hnil
                · rfl
              rw [head?_append_of_head? _ _ hne, hhead]
              exact hout

/-- Cleaning a path that does not start with a slash gives a path that does not
start with a slash. -/
theorem cleanChars_head?_ne_slash (p : List Char) (h : p.head? ≠ some '/') :
    (cleanChars p).head? ≠ some '/' := by
  cases p with
  | nil => decide
  | cons c t =>
    have hc : c ≠ '/' := fun hc => h (by rw [hc]; rfl)
    rw [cleanChars_cons_of_ne c t hc]
    split
    · decide
    · exact cleanRun_head?_ne_slash _ _ _ _ (le_refl _) (by simp)

/-- Joining onto a relative first element gives a relative path. -/
theorem Join_isRelative (e : String) (es : List String) (he : isRelative e) :
    isRelative (Join (e :: es)) := by
  rw [Join_cons_of_ne e es he.1]
  refine ⟨Clean_ne_empty _, ?_⟩
  show (cleanChars (joinSlash e es).data).head? ≠ some '/'
  apply cleanChars_head?_ne_slash
  rw [joinSlash_data, joinElems_head? _ _ (fun h => he.1 (String.ext h))]
  exact he.2

end path

theorem getClangPrebuiltDir_isRelative (cfg : ClangDefaults) (ctx : LoadHookContext) :
    path.isRelative (getClangPrebuiltDir cfg ctx) :=
  path.Join_isRelative "./" [prebuiltsVersion cfg ctx] (by decide)

theorem getClangResourceDir_isRelative (cfg : ClangDefaults) (ctx : LoadHookContext) :
    path.isRelative (getClangResourceDir cfg ctx) :=
  path.Join_isRelative _ _ (getClangPrebuiltDir_isRelative cfg ctx)

/-! ## Claims -/

/-- C1. The shared-runtime hook appends nothing when
`FORCE_BUILD_SANITIZER_SHARED_OBJECTS` is true; otherwise it appends exactly one
patch, and for every module name and every value of the version variables that
patch has `Sanitize.Never = true`, `Strip.None = true`, `Pack_relocations` pointing
to `false`, `Stl` pointing to `"none"` and an empty (non-nil) `System_shared_libs`. -/
theorem shared_hook_force_build_and_flags (cfg : ClangDefaults) (ctx : LoadHookContext) :
    (ctx.IsEnvTrue "FORCE_BUILD_SANITIZER_SHARED_OBJECTS" = true →
        libClangRtPrebuiltLibraryShared cfg ctx = []) ∧
    (ctx.IsEnvTrue "FORCE_BUILD_SANITIZER_SHARED_OBJECTS" = false →
        ∃ p, libClangRtPrebuiltLibraryShared cfg ctx = [p] ∧
          p.Sanitize.Never = true ∧ p.Strip.None = true ∧
          p.Pack_relocations = some false ∧ p.Stl = some "none" ∧
          p.System_shared_libs = some []) := by
  constructor
  · intro h
    simp [libClangRtPrebuiltLibraryShared, h]
  · intro h
    simp [libClangRtPrebuiltLibraryShared, h]

/-- Witness of C1: one context with the flag set to `"true"` and one with an
empty environment. -/
theorem shared_hook_force_build_and_flags_witness :
    libClangRtPrebuiltLibraryShared exampleDefaults
        ⟨envWith "FORCE_BUILD_SANITIZER_SHARED_OBJECTS" "true", "prebuilt_libclang_rt.asan", none⟩
      = [] ∧
    ∃ p, libClangRtPrebuiltLibraryShared exampleDefaults
        ⟨fun _ => none, "prebuilt_libclang_rt.asan", none⟩ = [p] ∧
      p.Sanitize.Never = true ∧ p.Strip.None = true ∧
      p.Pack_relocations = some false ∧ p.Stl = some "none" ∧
      p.System_shared_libs = some [] :=
  ⟨(shared_hook_force_build_and_flags exampleDefaults
      ⟨envWith "FORCE_BUILD_SANITIZER_SHARED_OBJECTS" "true", "prebuilt_libclang_rt.asan", none⟩).1
      (by decide),
   (shared_hook_force_build_and_flags exampleDefaults
      ⟨fun _ => none, "prebuilt_libclang_rt.asan", none⟩).2 (by decide)⟩

/-- C2. The multi-arch static hook appends one patch whose `Enabled` points to
`false` when `LLVM_PREBUILTS_BASE` is non-empty and both absolute paths are
computed and differ; to `true` when the variable is unset or empty; and to `true`
when both absolute paths are computed and are equal. -/
theorem static_hook_enabled (cfg : ClangDefaults) (ctx : LoadHookContext) :
    ∃ p, llvmPrebuiltLibraryStatic cfg ctx = [p] ∧
      (∀ a b, ctx.Getenv "LLVM_PREBUILTS_BASE" ≠ "" →
          filepath.Abs ctx.wd (ctx.Getenv "LLVM_PREBUILTS_BASE") = some a →
          filepath.Abs ctx.wd ".." = some b → a ≠ b → p.Enabled = some false) ∧
      (ctx.environ "LLVM_PREBUILTS_BASE" = none ∨ ctx.environ "LLVM_PREBUILTS_BASE" = some "" →
          p.Enabled = some true) ∧
      (∀ a b, filepath.Abs ctx.wd (ctx.Getenv "LLVM_PREBUILTS_BASE") = some a →
          filepath.Abs ctx.wd ".." = some b → a = b → p.Enabled = some true) := by
  refine ⟨_, llvmPrebuiltLibraryStatic_eq cfg ctx, ?_, ?_, ?_⟩
  · intro a b hne ha hb hab
    simp [llvmPrebuiltLibraryStatic.enableLLVMPrebuilts, hne, ha, hb, hab]
  · intro h
    have h0 : ctx.Getenv "LLVM_PREBUILTS_BASE" = "" := by
      rcases h with h | h <;> simp [LoadHookContext.Getenv, h]
    simp [llvmPrebuiltLibraryStatic.enableLLVMPrebuilts, h0]
  · intro a b ha hb hab
    by_cases hne : ctx.Getenv "LLVM_PREBUILTS_BASE" = ""
    · simp [llvmPrebuiltLibraryStatic.enableLLVMPrebuilts, hne]
    · simp [llvmPrebuiltLibraryStatic.enableLLVMPrebuilts, hne, ha, hb, hab]

/-- Witness of C2: a build started in `/src/prebuilts/clang/host/linux-x86`, once
with the override pointing elsewhere, once unset, once pointing at the parent
directory. -/
theorem static_hook_enabled_witness :
    (∃ p, llvmPrebuiltLibraryStatic exampleDefaults
        ⟨envWith "LLVM_PREBUILTS_BASE" "/tmp/llvm", "prebuilt_libomp",
          some "/src/prebuilts/clang/host/linux-x86"⟩ = [p] ∧ p.Enabled = some false) ∧
    (∃ p, llvmPrebuiltLibraryStatic exampleDefaults
        ⟨fun _ => none, "prebuilt_libomp",
          some "/src/prebuilts/clang/host/linux-x86"⟩ = [p] ∧ p.Enabled = some true) ∧
    (∃ p, llvmPrebuiltLibraryStatic exampleDefaults
        ⟨envWith "LLVM_PREBUILTS_BASE" "/src/prebuilts/clang/host/", "prebuilt_libomp",
          some "/src/prebuilts/clang/host/linux-x86"⟩ = [p] ∧ p.Enabled = some true) := by
  refine ⟨?_, ?_, ?_⟩
  · obtain ⟨p, hp, h1, -, -⟩ := static_hook_enabled exampleDefaults
      ⟨envWith "LLVM_PREBUILTS_BASE" "/tmp/llvm", "prebuilt_libomp",
        some "/src/prebuilts/clang/host/linux-x86"⟩
    exact ⟨p, hp, h1 "/tmp/llvm" "/src/prebuilts/clang/host" (by decide) (by decide)
      (by decide) (by decide)⟩
  · obtain ⟨p, hp, -, h2, -⟩ := static_hook_enabled exampleDefaults
      ⟨fun _ => none, "prebuilt_libomp", some "/src/prebuilts/clang/host/linux-x86"⟩
    exact ⟨p, hp, h2 (Or.inl rfl)⟩
  · obtain ⟨p, hp, -, -, h3⟩ := static_hook_enabled exampleDefaults
      ⟨envWith "LLVM_PREBUILTS_BASE" "/src/prebuilts/clang/host/", "prebuilt_libomp",
        some "/src/prebuilts/clang/host/linux-x86"⟩
    exact ⟨p, hp, h3 "/src/prebuilts/clang/host" "/src/prebuilts/clang/host" (by decide)
      (by decide) rfl⟩

/-- C3, as stated, fails: with `LLVM_PREBUILTS_BASE=out/stage1` and a working
directory that cannot be determined, both absolute-path computations fail and
the appended patch has `Enabled` pointing to `true`, not `false`. -/
theorem static_hook_abs_failure_not_disabled :
    (⟨envWith "LLVM_PREBUILTS_BASE" "out/stage1", "prebuilt_libomp", none⟩ :
        LoadHookContext).Getenv "LLVM_PREBUILTS_BASE" ≠ "" ∧
    filepath.Abs none "out/stage1" = none ∧ filepath.Abs none ".." = none ∧
    (llvmPrebuiltLibraryStatic exampleDefaults
        ⟨envWith "LLVM_PREBUILTS_BASE" "out/stage1", "prebuilt_libomp", none⟩).map
      (fun p => p.Enabled) = [some true] := by
  decide

/-- C3, amended. When `LLVM_PREBUILTS_BASE` is non-empty and computing the
absolute path of the override or of the parent directory fails, the hook does not
abort: it still appends exactly one patch, and that patch has `Enabled` pointing
to `true` (the failure leaves the module enabled). -/
theorem static_hook_abs_failure_enabled (cfg : ClangDefaults) (ctx : LoadHookContext)
    (_hbase : ctx.Getenv "LLVM_PREBUILTS_BASE" ≠ "")
    (hfail : filepath.Abs ctx.wd (ctx.Getenv "LLVM_PREBUILTS_BASE") = none ∨
      filepath.Abs ctx.wd ".." = none) :
    ∃ p, llvmPrebuiltLibraryStatic cfg ctx = [p] ∧ p.Enabled = some true := by
  refine ⟨_, llvmPrebuiltLibraryStatic_eq cfg ctx, ?_⟩
  show some (llvmPrebuiltLibraryStatic.enableLLVMPrebuilts ctx) = some true
  unfold llvmPrebuiltLibraryStatic.enableLLVMPrebuilts
  rcases hfail with h | h
  · simp [h]
  · simp only [h]
    cases filepath.Abs ctx.wd (ctx.Getenv "LLVM_PREBUILTS_BASE") <;> simp

/-- Witness of the amended C3: an absolute override and an unknown working
directory, so that only the parent directory fails to resolve. -/
theorem static_hook_abs_failure_enabled_witness :
    ∃ p, llvmPrebuiltLibraryStatic exampleDefaults
        ⟨envWith "LLVM_PREBUILTS_BASE" "/tmp/llvm", "prebuilt_libomp", none⟩ = [p] ∧
      p.Enabled = some true :=
  static_hook_abs_failure_enabled exampleDefaults
    ⟨envWith "LLVM_PREBUILTS_BASE" "/tmp/llvm", "prebuilt_libomp", none⟩
    (by decide) (Or.inr (by decide))

/-- C4, as stated, fails: for module `prebuilt_libclang_rt.asan-aarch64-android`,
an empty environment and the defaults `11.0.1` / `11.0.1`, the single source path
of the shared-runtime patch is not the string starting with `./`; `path.Join`
cleans the leading `./` away. -/
theorem shared_hook_end_to_end_no_dot_slash :
    (libClangRtPrebuiltLibraryShared ⟨"11.0.1", "11.0.1"⟩
        ⟨fun _ => none, "prebuilt_libclang_rt.asan-aarch64-android", none⟩).map
      (fun p => p.Srcs) ≠
      [some ["./11.0.1/lib64/clang/11.0.1/lib/linux/libclang_rt.asan-aarch64-android.so"]] := by
  decide

/-- C4, amended. With module name `prebuilt_libclang_rt.asan-aarch64-android`,
`LLVM_PREBUILTS_VERSION` and `LLVM_RELEASE_VERSION` unset, defaults `11.0.1` and
`11.0.1`, and the force-build flag not true, the hook appends one patch whose
`Srcs` is the one-element list holding exactly
`11.0.1/lib64/clang/11.0.1/lib/linux/libclang_rt.asan-aarch64-android.so`. -/
theorem shared_hook_end_to_end (ctx : LoadHookContext)
    (hname : ctx.moduleName = "prebuilt_libclang_rt.asan-aarch64-android")
    (hver : ctx.environ "LLVM_PREBUILTS_VERSION" = none)
    (hrel : ctx.environ "LLVM_RELEASE_VERSION" = none)
    (hforce : ctx.IsEnvTrue "FORCE_BUILD_SANITIZER_SHARED_OBJECTS" = false) :
    ∃ p, libClangRtPrebuiltLibraryShared ⟨"11.0.1", "11.0.1"⟩ ctx = [p] ∧
      p.Srcs =
        some ["11.0.1/lib64/clang/11.0.1/lib/linux/libclang_rt.asan-aarch64-android.so"] := by
  refine ⟨_, libClangRtPrebuiltLibraryShared_eq _ ctx hforce, ?_⟩
  have hV : prebuiltsVersion ⟨"11.0.1", "11.0.1"⟩ ctx = "11.0.1" := by
    simp [prebuiltsVersion, LoadHookContext.GetenvWithDefault, LoadHookContext.Getenv, hver]
  have hR : releaseVersion ⟨"11.0.1", "11.0.1"⟩ ctx = "11.0.1" := by
    simp [releaseVersion, LoadHookContext.GetenvWithDefault, LoadHookContext.Getenv, hrel]
  have hdir : getClangResourceDir ⟨"11.0.1", "11.0.1"⟩ ctx =
      "11.0.1/lib64/clang/11.0.1/lib/linux" := by
    unfold getClangResourceDir getClangPrebuiltDir
    rw [hV, hR]
    decide
  show some [path.Join [getClangResourceDir ⟨"11.0.1", "11.0.1"⟩ ctx,
    strings.Replace ctx.ModuleName "prebuilt_" "" 1 ++ ".so"]] = _
  rw [hdir, LoadHookContext.ModuleName, hname]
  decide

/-- Witness of the amended C4: the empty environment. -/
theorem shared_hook_end_to_end_witness :
    ∃ p, libClangRtPrebuiltLibraryShared ⟨"11.0.1", "11.0.1"⟩
        ⟨fun _ => none, "prebuilt_libclang_rt.asan-aarch64-android", none⟩ = [p] ∧
      p.Srcs =
        some ["11.0.1/lib64/clang/11.0.1/lib/linux/libclang_rt.asan-aarch64-android.so"] :=
  shared_hook_end_to_end ⟨fun _ => none, "prebuilt_libclang_rt.asan-aarch64-android", none⟩
    rfl rfl rfl (by decide)

/-- C5. The hook fills each of the six `Target.Android_<arch>.Srcs` fields with
exactly one path, the resource directory joined with the subdirectory the
specification's table assigns to that architecture and with the archive name.
The table maps arm, arm64, mips, mips64, x86, x86_64 to `arm`, `aarch64`, `mips`,
`mips64`, `i386`, `x86_64`; its six values are non-empty and pairwise distinct,
and arm64 and x86 are the only architectures not mapped to their own identifier. -/
theorem static_hook_arch_table (cfg : ClangDefaults) (ctx : LoadHookContext) :
    (∃ p, llvmPrebuiltLibraryStatic cfg ctx = [p] ∧
      ∀ a : Arch, (p.Target.field a).Srcs =
        some [path.Join [getClangResourceDir cfg ctx, a.specSubdirFor,
          llvmPrebuiltLibraryStatic.name ctx]]) ∧
    List.map Arch.specSubdirFor [.arm, .arm64, .mips, .mips64, .x86, .x86_64] =
      ["arm", "aarch64", "mips", "mips64", "i386", "x86_64"] ∧
    (∀ a : Arch, a.specSubdirFor ≠ "") ∧
    Function.Injective Arch.specSubdirFor ∧
    (∀ a : Arch, a.specSubdirFor ≠ a.identifier ↔ a = .arm64 ∨ a = .x86) := by
  refine ⟨⟨_, llvmPrebuiltLibraryStatic_eq cfg ctx, ?_⟩, rfl, ?_, ?_, ?_⟩
  · intro a
    cases a <;> rfl
  · intro a
    cases a <;> decide
  · intro a b
    cases a <;> cases b <;> decide
  · intro a
    cases a <;> decide

/-- C6, as stated, fails: the module name `libFuzzer` is not `prebuilt_libFuzzer`,
yet its derived file name is `libFuzzer.a` too and `Export_include_dirs` is
populated. -/
theorem static_hook_include_dirs_other_name :
    ("libFuzzer" : String) ≠ "prebuilt_libFuzzer" ∧
    (llvmPrebuiltLibraryStatic exampleDefaults ⟨fun _ => none, "libFuzzer", none⟩).map
      (fun p => p.Export_include_dirs) = [some ["11.0.1/prebuilt_include/llvm/lib/Fuzzer"]] := by
  decide

/-- C6, amended. For module name `prebuilt_libFuzzer` the derived file name is
`libFuzzer.a`.  `Export_include_dirs` is populated (a one-element list) exactly
when the derived file name is `libFuzzer.a`, that is for the module names
`prebuilt_libFuzzer` and `libFuzzer`; for every other module name it is nil. -/
theorem static_hook_include_dirs (cfg : ClangDefaults) (ctx : LoadHookContext) :
    llvmPrebuiltLibraryStatic.name { ctx with moduleName := "prebuilt_libFuzzer" } =
      "libFuzzer.a" ∧
    (llvmPrebuiltLibraryStatic.name ctx = "libFuzzer.a" ↔
      ctx.moduleName = "prebuilt_libFuzzer" ∨ ctx.moduleName = "libFuzzer") ∧
    ∃ p, llvmPrebuiltLibraryStatic cfg ctx = [p] ∧
      (ctx.moduleName = "prebuilt_libFuzzer" ∨ ctx.moduleName = "libFuzzer" →
        ∃ d, p.Export_include_dirs = some [d]) ∧
      (ctx.moduleName ≠ "prebuilt_libFuzzer" → ctx.moduleName ≠ "libFuzzer" →
        p.Export_include_dirs = none) := by
  have key : llvmPrebuiltLibraryStatic.name ctx = "libFuzzer.a" ↔
      ctx.moduleName = "prebuilt_libFuzzer" ∨ ctx.moduleName = "libFuzzer" := by
    rw [← strings.TrimPrefix_eq_iff_libFuzzer]
    exact String.append_right_cancel_iff _ "libFuzzer" ".a"
  have hname : strings.TrimPrefix "prebuilt_libFuzzer" "prebuilt_" ++ ".a" = "libFuzzer.a" := by
    decide
  refine ⟨hname, key, _, llvmPrebuiltLibraryStatic_eq cfg ctx, ?_, ?_⟩
  · intro h
    exact ⟨_, if_pos (key.2 h)⟩
  · intro h1 h2
    exact if_neg (fun h => (key.1 h).elim h1 h2)

/-- Witness of the amended C6: `prebuilt_libFuzzer` gets the include directory,
`prebuilt_libomp` does not. -/
theorem static_hook_include_dirs_witness :
    (∃ p, llvmPrebuiltLibraryStatic exampleDefaults
        ⟨fun _ => none, "prebuilt_libFuzzer", none⟩ = [p] ∧
      ∃ d, p.Export_include_dirs = some [d]) ∧
    (∃ p, llvmPrebuiltLibraryStatic exampleDefaults
        ⟨fun _ => none, "prebuilt_libomp", none⟩ = [p] ∧ p.Export_include_dirs = none) := by
  constructor
  · obtain ⟨-, -, p, hp, h1, -⟩ := static_hook_include_dirs exampleDefaults
      ⟨fun _ => none, "prebuilt_libFuzzer", none⟩
    exact ⟨p, hp, h1 (Or.inl rfl)⟩
  · obtain ⟨-, -, p, hp, -, h2⟩ := static_hook_include_dirs exampleDefaults
      ⟨fun _ => none, "prebuilt_libomp", none⟩
    exact ⟨p, hp, h2 (by decide) (by decide)⟩

/-- C7, as stated, fails: with `LLVM_PREBUILTS_VERSION=clang-dev/` the directory
returned by `getClangPrebuiltDir` is `clang-dev`, not the override verbatim. -/
theorem getClangPrebuiltDir_not_verbatim :
    getClangPrebuiltDir exampleDefaults
        ⟨envWith "LLVM_PREBUILTS_VERSION" "clang-dev/", "prebuilt_libomp", none⟩ = "clang-dev" ∧
    getClangPrebuiltDir exampleDefaults
        ⟨envWith "LLVM_PREBUILTS_VERSION" "clang-dev/", "prebuilt_libomp", none⟩ ≠
      "clang-dev/" := by
  decide

/-- C7, amended. The version passed to `path.Join` by `getClangPrebuiltDir` is the
built-in default when `LLVM_PREBUILTS_VERSION` is unset or empty and the override
verbatim otherwise; `getClangPrebuiltDir` returns `path.Join("./", version)`, which is
that version verbatim whenever the version is a clean relative path (it does not
start with a slash and `path.Clean` leaves it unchanged), in particular whenever
it is non-empty and has no slash.  The release-version element used by
`getClangResourceDir` is the default short version when `LLVM_RELEASE_VERSION` is
unset or empty and the override verbatim otherwise. -/
theorem env_resolution (cfg : ClangDefaults) (ctx : LoadHookContext) :
    (ctx.environ "LLVM_PREBUILTS_VERSION" = none ∨
        ctx.environ "LLVM_PREBUILTS_VERSION" = some "" →
      prebuiltsVersion cfg ctx = cfg.ClangDefaultVersion) ∧
    (∀ v, ctx.environ "LLVM_PREBUILTS_VERSION" = some v → v ≠ "" →
      prebuiltsVersion cfg ctx = v) ∧
    getClangPrebuiltDir cfg ctx = path.Join ["./", prebuiltsVersion cfg ctx] ∧
    ((prebuiltsVersion cfg ctx).data.head? ≠ some '/' →
      path.Clean (prebuiltsVersion cfg ctx) = prebuiltsVersion cfg ctx →
      getClangPrebuiltDir cfg ctx = prebuiltsVersion cfg ctx) ∧
    (prebuiltsVersion cfg ctx ≠ "" → '/' ∉ (prebuiltsVersion cfg ctx).data →
      getClangPrebuiltDir cfg ctx = prebuiltsVersion cfg ctx) ∧
    (ctx.environ "LLVM_RELEASE_VERSION" = none ∨
        ctx.environ "LLVM_RELEASE_VERSION" = some "" →
      releaseVersion cfg ctx = cfg.ClangDefaultShortVersion) ∧
    (∀ r, ctx.environ "LLVM_RELEASE_VERSION" = some r → r ≠ "" →
      releaseVersion cfg ctx = r) ∧
    getClangResourceDir cfg ctx =
      path.Join [getClangPrebuiltDir cfg ctx, "lib64", "clang", releaseVersion cfg ctx, "lib",
        "linux"] := by
  refine ⟨?_, ?_, rfl, ?_, ?_, ?_, ?_, rfl⟩
  · rintro (h | h) <;>
      simp [prebuiltsVersion, LoadHookContext.GetenvWithDefault, LoadHookContext.Getenv, h]
  · intro v h hv
    simp [prebuiltsVersion, LoadHookContext.GetenvWithDefault, LoadHookContext.Getenv, h, hv]
  · intro h hclean
    rw [getClangPrebuiltDir_relative cfg ctx h, hclean]
  · intro hne hslash
    rw [getClangPrebuiltDir_relative cfg ctx (head?_ne_slash_of_not_mem _ hslash)]
    exact path.Clean_single _ hne hslash
  · rintro (h | h) <;>
      simp [releaseVersion, LoadHookContext.GetenvWithDefault, LoadHookContext.Getenv, h]
  · intro r h hr
    simp [releaseVersion, LoadHookContext.GetenvWithDefault, LoadHookContext.Getenv, h, hr]

/-- Witness of the amended C7: `LLVM_PREBUILTS_VERSION=clang-r383902`, no release
override. -/
theorem env_resolution_witness :
    getClangPrebuiltDir exampleDefaults
        ⟨envWith "LLVM_PREBUILTS_VERSION" "clang-r383902", "prebuilt_libomp", none⟩ =
      "clang-r383902" ∧
    releaseVersion exampleDefaults
        ⟨envWith "LLVM_PREBUILTS_VERSION" "clang-r383902", "prebuilt_libomp", none⟩ =
      "11.0.1" := by
  obtain ⟨-, h2, -, -, h5, h6, -, -⟩ := env_resolution exampleDefaults
    ⟨envWith "LLVM_PREBUILTS_VERSION" "clang-r383902", "prebuilt_libomp", none⟩
  have hv := h2 "clang-r383902" (by decide) (by decide)
  refine ⟨?_, h6 (Or.inl (by decide))⟩
  rw [h5 (by rw [hv]; decide) (by rw [hv]; decide), hv]

/-- C8. When the resolved version, the release version and the derived base name
are each a real path element (non-empty, no slash, neither `.` nor `..`), every
one of the six paths of the multi-arch static patch is the prebuilt directory
followed by `/lib64/clang/`, the release version, `/lib/linux/`, the architecture's
subdirectory, `/`, the base name and `.a`; the single path of the shared-runtime
patch and of the static-runtime patch is the same directory prefix
`…/lib/linux` followed directly by `/`, the base name and `.so`, respectively
`.a`.  The prebuilt directory is then the version itself. -/
theorem artifact_path_layout (cfg : ClangDefaults) (ctx : LoadHookContext)
    (hV : path.isElement (prebuiltsVersion cfg ctx).data)
    (hR : path.isElement (releaseVersion cfg ctx).data) :
    getClangPrebuiltDir cfg ctx = prebuiltsVersion cfg ctx ∧
    (path.isElement (strings.TrimPrefix ctx.ModuleName "prebuilt_").data →
      ∃ p, llvmPrebuiltLibraryStatic cfg ctx = [p] ∧
        ∀ a : Arch, (p.Target.field a).Srcs =
          some [getClangPrebuiltDir cfg ctx ++ "/lib64/clang/" ++ releaseVersion cfg ctx ++
            "/lib/linux/" ++ a.specSubdirFor ++ "/" ++
            strings.TrimPrefix ctx.ModuleName "prebuilt_" ++ ".a"]) ∧
    (path.isElement (strings.Replace ctx.ModuleName "prebuilt_" "" 1).data →
      (ctx.IsEnvTrue "FORCE_BUILD_SANITIZER_SHARED_OBJECTS" = false →
        ∃ p, libClangRtPrebuiltLibraryShared cfg ctx = [p] ∧
          p.Srcs =
            some [getClangPrebuiltDir cfg ctx ++ "/lib64/clang/" ++ releaseVersion cfg ctx ++
              "/lib/linux" ++ "/" ++ (strings.Replace ctx.ModuleName "prebuilt_" "" 1 ++ ".so")]) ∧
      ∃ p, libClangRtPrebuiltLibraryStatic cfg ctx = [p] ∧
        p.Srcs =
          some [getClangPrebuiltDir cfg ctx ++ "/lib64/clang/" ++ releaseVersion cfg ctx ++
            "/lib/linux" ++ "/" ++ (strings.Replace ctx.ModuleName "prebuilt_" "" 1 ++ ".a")]) := by
  refine ⟨(getClangResourceDir_elements cfg ctx hV hR).1, ?_, ?_⟩
  · intro hB
    refine ⟨_, llvmPrebuiltLibraryStatic_eq cfg ctx, ?_⟩
    intro a
    have hjoin := Join_getClangResourceDir_joinSlash cfg ctx hV hR
      [a.specSubdirFor, llvmPrebuiltLibraryStatic.name ctx] (by
        intro x hx
        simp only [List.mem_cons, List.mem_singleton, List.not_mem_nil, or_false] at hx
        rcases hx with rfl | rfl
        · exact isElement_specSubdirFor a
        · exact isElement_append_a _ hB.2.1)
    have hstr := layout_arch_string (getClangPrebuiltDir cfg ctx) (releaseVersion cfg ctx)
      a.specSubdirFor (strings.TrimPrefix ctx.ModuleName "prebuilt_")
    have hpath : path.Join [getClangResourceDir cfg ctx, a.specSubdirFor,
        llvmPrebuiltLibraryStatic.name ctx] = _ := hjoin.trans hstr
    rw [← hpath]
    cases a <;> rfl
  · intro hB
    have hso := Join_getClangResourceDir_joinSlash cfg ctx hV hR
      [strings.Replace ctx.ModuleName "prebuilt_" "" 1 ++ ".so"] (by
        intro x hx
        rw [List.mem_singleton] at hx
        subst hx
        exact isElement_append_so _ hB.2.1)
    have ha := Join_getClangResourceDir_joinSlash cfg ctx hV hR
      [strings.Replace ctx.ModuleName "prebuilt_" "" 1 ++ ".a"] (by
        intro x hx
        rw [List.mem_singleton] at hx
        subst hx
        exact isElement_append_a _ hB.2.1)
    constructor
    · intro hforce
      refine ⟨_, libClangRtPrebuiltLibraryShared_eq cfg ctx hforce, ?_⟩
      show some [path.Join _] = _
      rw [hso.trans (layout_runtime_string _ _ _)]
    · refine ⟨_, libClangRtPrebuiltLibraryStatic_eq cfg ctx, ?_⟩
      show some [path.Join _] = _
      rw [ha.trans (layout_runtime_string _ _ _)]

/-- Witness of C8: `LLVM_PREBUILTS_VERSION=clang-r383902`, the default release
version and the module `prebuilt_libomp`. -/
theorem artifact_path_layout_witness :
    (∃ p, llvmPrebuiltLibraryStatic exampleDefaults
        ⟨envWith "LLVM_PREBUILTS_VERSION" "clang-r383902", "prebuilt_libomp", none⟩ = [p] ∧
      p.Target.Android_arm64.Srcs =
        some ["clang-r383902/lib64/clang/11.0.1/lib/linux/aarch64/libomp.a"]) ∧
    (∃ p, libClangRtPrebuiltLibraryShared exampleDefaults
        ⟨envWith "LLVM_PREBUILTS_VERSION" "clang-r383902", "prebuilt_libomp", none⟩ = [p] ∧
      p.Srcs = some ["clang-r383902/lib64/clang/11.0.1/lib/linux/libomp.so"]) ∧
    (∃ p, libClangRtPrebuiltLibraryStatic exampleDefaults
        ⟨envWith "LLVM_PREBUILTS_VERSION" "clang-r383902", "prebuilt_libomp", none⟩ = [p] ∧
      p.Srcs = some ["clang-r383902/lib64/clang/11.0.1/lib/linux/libomp.a"]) := by
  obtain ⟨-, hs, hr⟩ := artifact_path_layout exampleDefaults
    ⟨envWith "LLVM_PREBUILTS_VERSION" "clang-r383902", "prebuilt_libomp", none⟩
    (by decide) (by decide)
  obtain ⟨p, hp, hsrc⟩ := hs (by decide)
  obtain ⟨hshared, q, hq, hqsrc⟩ := hr (by decide)
  obtain ⟨r, hr', hrsrc⟩ := hshared (by decide)
  exact ⟨⟨p, hp, (hsrc .arm64).trans (by decide)⟩, ⟨r, hr', hrsrc.trans (by decide)⟩,
    ⟨q, hq, hqsrc.trans (by decide)⟩⟩

/-- C9. The shared-runtime hook puts under the resource directory the file name
`base ++ ".so"`, where `base` is the module name with only the first occurrence of
`prebuilt_` removed: a name `prebuilt_ ++ s` gives exactly `s` (whatever `s`
contains), a name without an occurrence is unchanged, and in general a name
`a ++ prebuilt_ ++ b` whose occurrence behind `a` is the first one gives `a ++ b`. -/
theorem shared_hook_base_name (cfg : ClangDefaults) (ctx : LoadHookContext)
    (hforce : ctx.IsEnvTrue "FORCE_BUILD_SANITIZER_SHARED_OBJECTS" = false) :
    (∃ p, libClangRtPrebuiltLibraryShared cfg ctx = [p] ∧
      p.Srcs = some [path.Join [getClangResourceDir cfg ctx,
        strings.Replace ctx.ModuleName "prebuilt_" "" 1 ++ ".so"]]) ∧
    (∀ s : String, ctx.ModuleName = "prebuilt_" ++ s →
      strings.Replace ctx.ModuleName "prebuilt_" "" 1 = s) ∧
    ((∀ a b : String, ctx.ModuleName ≠ a ++ "prebuilt_" ++ b) →
      strings.Replace ctx.ModuleName "prebuilt_" "" 1 = ctx.ModuleName) ∧
    (∀ a b : String, ctx.ModuleName = a ++ "prebuilt_" ++ b →
      (∀ a' b' : String, ctx.ModuleName = a' ++ "prebuilt_" ++ b' → a.length ≤ a'.length) →
      strings.Replace ctx.ModuleName "prebuilt_" "" 1 = a ++ b) := by
  refine ⟨⟨_, libClangRtPrebuiltLibraryShared_eq cfg ctx hforce, rfl⟩, ?_, ?_, ?_⟩
  · intro s hs
    have h0 : ("prebuilt_" : String) ++ s = "" ++ "prebuilt_" ++ s := by
      apply String.ext
      simp [String.data_append]
    rw [hs, h0, strings.Replace_prebuilt_first "" s (fun a' _ _ => Nat.zero_le _)]
    apply String.ext
    simp [String.data_append]
  · intro h
    exact strings.Replace_prebuilt_none _ h
  · intro a b hab hfirst
    rw [hab]
    exact strings.Replace_prebuilt_first a b (fun a' b' h => hfirst a' b' (hab.trans h))

/-- Witness of C9: a name with the prefix and a second occurrence, and a name
without any occurrence. -/
theorem shared_hook_base_name_witness :
    strings.Replace "prebuilt_libprebuilt_x" "prebuilt_" "" 1 = "libprebuilt_x" ∧
    strings.Replace "libclang_rt.asan" "prebuilt_" "" 1 = "libclang_rt.asan" ∧
    ∃ p, libClangRtPrebuiltLibraryShared exampleDefaults
        ⟨fun _ => none, "prebuilt_libprebuilt_x", none⟩ = [p] ∧
      p.Srcs = some ["11.0.1/lib64/clang/11.0.1/lib/linux/libprebuilt_x.so"] := by
  obtain ⟨⟨p, hp, hsrc⟩, hpre, -, -⟩ := shared_hook_base_name exampleDefaults
    ⟨fun _ => none, "prebuilt_libprebuilt_x", none⟩ (by decide)
  refine ⟨hpre "libprebuilt_x" (by decide), by decide, p, hp, hsrc.trans (by decide)⟩

/-- C10. For every module name and environment the static-runtime hook appends
exactly one patch, whose only field is a one-element `Srcs` list.  Its path is
derived like the shared-runtime path (same resource directory, same base name)
with `.a` in place of `.so`: the two paths are one common stem followed by `.a`,
respectively `.so`. -/
theorem static_runtime_hook_same_derivation (cfg : ClangDefaults) (ctx : LoadHookContext) :
    ∃ stem : String,
      libClangRtPrebuiltLibraryStatic cfg ctx = [⟨some [stem ++ ".a"]⟩] ∧
      stem ++ ".a" = path.Join [getClangResourceDir cfg ctx,
        strings.Replace ctx.ModuleName "prebuilt_" "" 1 ++ ".a"] ∧
      stem ++ ".so" = path.Join [getClangResourceDir cfg ctx,
        strings.Replace ctx.ModuleName "prebuilt_" "" 1 ++ ".so"] ∧
      (ctx.IsEnvTrue "FORCE_BUILD_SANITIZER_SHARED_OBJECTS" = false →
        ∃ q, libClangRtPrebuiltLibraryShared cfg ctx = [q] ∧ q.Srcs = some [stem ++ ".so"]) := by
  obtain ⟨stem, ha, hso⟩ := path.Join_stem (getClangResourceDir cfg ctx)
    (strings.Replace ctx.ModuleName "prebuilt_" "" 1) (getClangResourceDir_ne_empty cfg ctx)
  refine ⟨stem, ?_, ha.symm, hso.symm, ?_⟩
  · rw [libClangRtPrebuiltLibraryStatic_eq, ha]
  · intro hforce
    refine ⟨_, libClangRtPrebuiltLibraryShared_eq cfg ctx hforce, ?_⟩
    show some [path.Join _] = _
    rw [hso]

/-- Witness of C10: the asan runtime with an empty environment. -/
theorem static_runtime_hook_same_derivation_witness :
    libClangRtPrebuiltLibraryStatic exampleDefaults
        ⟨fun _ => none, "prebuilt_libclang_rt.asan-aarch64-android", none⟩ =
      [⟨some ["11.0.1/lib64/clang/11.0.1/lib/linux/libclang_rt.asan-aarch64-android.a"]⟩] ∧
    ∃ q, libClangRtPrebuiltLibraryShared exampleDefaults
        ⟨fun _ => none, "prebuilt_libclang_rt.asan-aarch64-android", none⟩ = [q] ∧
      q.Srcs =
        some ["11.0.1/lib64/clang/11.0.1/lib/linux/libclang_rt.asan-aarch64-android.so"] := by
  obtain ⟨stem, h1, h2, h3, h4⟩ := static_runtime_hook_same_derivation exampleDefaults
    ⟨fun _ => none, "prebuilt_libclang_rt.asan-aarch64-android", none⟩
  obtain ⟨q, hq, hsrc⟩ := h4 (by decide)
  refine ⟨?_, q, hq, ?_⟩
  · rw [h1, h2]
    decide
  · rw [hsrc, h3]
    decide

/-- C11. When the derived file name is `libFuzzer.a`, the multi-arch static hook
populates `Export_include_dirs` with exactly one entry, the prebuilt directory
joined with `prebuilt_include`, `llvm`, `lib`, `Fuzzer`.  For a version that is a
real path element this entry is the prebuilt directory (the version itself)
followed by `/prebuilt_include/llvm/lib/Fuzzer`.  The list does not depend on
`LLVM_RELEASE_VERSION` or on the default short version: two runs that agree on
the module name, on `LLVM_PREBUILTS_VERSION` and on the default version populate
the same list. -/
theorem static_hook_include_dir_entry (cfg : ClangDefaults) (ctx : LoadHookContext)
    (hname : llvmPrebuiltLibraryStatic.name ctx = "libFuzzer.a") :
    ∃ p, llvmPrebuiltLibraryStatic cfg ctx = [p] ∧
      p.Export_include_dirs =
        some [path.Join [getClangPrebuiltDir cfg ctx, "prebuilt_include", "llvm", "lib",
          "Fuzzer"]] ∧
      (path.isElement (prebuiltsVersion cfg ctx).data →
        getClangPrebuiltDir cfg ctx = prebuiltsVersion cfg ctx ∧
        p.Export_include_dirs =
          some [getClangPrebuiltDir cfg ctx ++ "/prebuilt_include/llvm/lib/Fuzzer"]) ∧
      (∀ (cfg2 : ClangDefaults) (ctx2 : LoadHookContext),
        cfg2.ClangDefaultVersion = cfg.ClangDefaultVersion →
        ctx2.moduleName = ctx.moduleName →
        ctx2.environ "LLVM_PREBUILTS_VERSION" = ctx.environ "LLVM_PREBUILTS_VERSION" →
        ∃ p2, llvmPrebuiltLibraryStatic cfg2 ctx2 = [p2] ∧
          p2.Export_include_dirs = p.Export_include_dirs) := by
  refine ⟨_, llvmPrebuiltLibraryStatic_eq cfg ctx, if_pos hname, ?_, ?_⟩
  · intro hV
    have hdir : getClangPrebuiltDir cfg ctx = prebuiltsVersion cfg ctx := by
      rw [getClangPrebuiltDir_relative cfg ctx (head?_ne_slash_of_not_mem _ hV.2.1)]
      exact path.Clean_single _ (fun h => hV.1 (congrArg String.data h)) hV.2.1
    refine ⟨hdir, ?_⟩
    show (if llvmPrebuiltLibraryStatic.name ctx = "libFuzzer.a" then _ else _) = _
    rw [if_pos hname, hdir, ← layout_include_string]
    congr 2
    apply path.Join_elements
    intro x hx
    simp only [List.mem_cons, List.mem_singleton, List.not_mem_nil, or_false] at hx
    rcases hx with rfl | rfl | rfl | rfl | rfl
    · exact hV
    · decide
    · decide
    · decide
    · decide
  · intro cfg2 ctx2 hcfg hmod henv
    have hname2 : llvmPrebuiltLibraryStatic.name ctx2 = "libFuzzer.a" := by
      rw [← hname]
      simp only [llvmPrebuiltLibraryStatic.name, LoadHookContext.ModuleName, hmod]
    have hver : prebuiltsVersion cfg2 ctx2 = prebuiltsVersion cfg ctx := by
      simp only [prebuiltsVersion, LoadHookContext.GetenvWithDefault, LoadHookContext.Getenv,
        henv, hcfg]
    have hdir : getClangPrebuiltDir cfg2 ctx2 = getClangPrebuiltDir cfg ctx := by
      simp only [getClangPrebuiltDir, hver]
    refine ⟨_, llvmPrebuiltLibraryStatic_eq cfg2 ctx2, ?_⟩
    show (if llvmPrebuiltLibraryStatic.name ctx2 = "libFuzzer.a" then _ else _) =
      (if llvmPrebuiltLibraryStatic.name ctx = "libFuzzer.a" then _ else _)
    rw [if_pos hname2, if_pos hname, hdir]

/-- Witness of C11: `prebuilt_libFuzzer` with `LLVM_PREBUILTS_VERSION=clang-r383902`,
and the same run with `LLVM_RELEASE_VERSION=9.0.3` added. -/
theorem static_hook_include_dir_entry_witness :
    (∃ p, llvmPrebuiltLibraryStatic exampleDefaults
        ⟨envWith "LLVM_PREBUILTS_VERSION" "clang-r383902", "prebuilt_libFuzzer", none⟩ = [p] ∧
      p.Export_include_dirs = some ["clang-r383902/prebuilt_include/llvm/lib/Fuzzer"]) ∧
    (∃ p2, llvmPrebuiltLibraryStatic exampleDefaults
        ⟨fun k => if k = "LLVM_RELEASE_VERSION" then some "9.0.3"
          else envWith "LLVM_PREBUILTS_VERSION" "clang-r383902" k,
          "prebuilt_libFuzzer", none⟩ = [p2] ∧
      p2.Export_include_dirs = some ["clang-r383902/prebuilt_include/llvm/lib/Fuzzer"]) := by
  obtain ⟨p, hp, -, h2, h3⟩ := static_hook_include_dir_entry exampleDefaults
    ⟨envWith "LLVM_PREBUILTS_VERSION" "clang-r383902", "prebuilt_libFuzzer", none⟩ (by decide)
  have hp1 : p.Export_include_dirs = some ["clang-r383902/prebuilt_include/llvm/lib/Fuzzer"] :=
    (h2 (by decide)).2.trans (by decide)
  obtain ⟨p2, hp2, heq⟩ := h3 exampleDefaults
    ⟨fun k => if k = "LLVM_RELEASE_VERSION" then some "9.0.3"
      else envWith "LLVM_PREBUILTS_VERSION" "clang-r383902" k,
      "prebuilt_libFuzzer", none⟩ rfl rfl (by decide)
  exact ⟨⟨p, hp, hp1⟩, ⟨p2, hp2, heq.trans hp1⟩⟩

/-- C12. On conventional names the two base-name derivations agree: for a module
name that starts with `prebuilt_`, or that does not contain `prebuilt_` at all,
`strings.TrimPrefix(name, "prebuilt_")` (multi-arch static hook) equals
`strings.Replace(name, "prebuilt_", "", 1)` (both runtime hooks). -/
theorem base_name_derivations_agree (name : String)
    (h : (∃ s : String, name = "prebuilt_" ++ s) ∨
      ∀ a b : String, name ≠ a ++ "prebuilt_" ++ b) :
    strings.TrimPrefix name "prebuilt_" = strings.Replace name "prebuilt_" "" 1 := by
  rcases h with ⟨s, rfl⟩ | h
  · rw [strings.TrimPrefix_prebuilt_append]
    have h0 : ("prebuilt_" : String) ++ s = "" ++ "prebuilt_" ++ s := by
      apply String.ext
      simp [String.data_append]
    rw [h0, strings.Replace_prebuilt_first "" s (fun a' _ _ => Nat.zero_le _)]
    apply String.ext
    simp [String.data_append]
  · rw [strings.TrimPrefix_prebuilt_none name h, strings.Replace_prebuilt_none name h]

/-- Witness of C12: a prefixed name that contains `prebuilt_` twice, and a name
without it. -/
theorem base_name_derivations_agree_witness :
    strings.TrimPrefix "prebuilt_libprebuilt_x" "prebuilt_" =
      strings.Replace "prebuilt_libprebuilt_x" "prebuilt_" "" 1 ∧
    strings.TrimPrefix "libclang_rt.asan" "prebuilt_" =
      strings.Replace "libclang_rt.asan" "prebuilt_" "" 1 :=
  ⟨base_name_derivations_agree "prebuilt_libprebuilt_x" (Or.inl ⟨"libprebuilt_x", by decide⟩),
   base_name_derivations_agree "libclang_rt.asan" (Or.inr (by
    intro a b hab
    have hd := congrArg String.data hab
    simp only [String.data_append] at hd
    have hnone : strings.indexChars ("prebuilt_" : String).data
        ("libclang_rt.asan" : String).data = none := by decide
    exact strings.indexChars_none _ _ hnone a.data b.data hd))⟩

/-- C13. In the multi-arch static hook the base-directory override does not
interfere with the paths: a second run that agrees with the first on the module
name, on `LLVM_PREBUILTS_VERSION` and on `LLVM_RELEASE_VERSION` (whatever its
`LLVM_PREBUILTS_BASE` and working directory) appends a patch with the same
`Export_include_dirs` and the same `Srcs` for all six architectures, so the two
patches differ at most in `Enabled`.  Conversely `Enabled` is the same for any
run with the same `LLVM_PREBUILTS_BASE` and working directory, whatever the
module name, the version variables and the defaults.  Every patch, a disabled
one included, carries one source path for each of the six architectures. -/
theorem static_hook_base_noninterference (cfg : ClangDefaults) (ctx : LoadHookContext) :
    ∃ p, llvmPrebuiltLibraryStatic cfg ctx = [p] ∧
      (∀ ctx2 : LoadHookContext, ctx2.moduleName = ctx.moduleName →
        ctx2.environ "LLVM_PREBUILTS_VERSION" = ctx.environ "LLVM_PREBUILTS_VERSION" →
        ctx2.environ "LLVM_RELEASE_VERSION" = ctx.environ "LLVM_RELEASE_VERSION" →
        ∃ p2, llvmPrebuiltLibraryStatic cfg ctx2 = [p2] ∧
          p2.Export_include_dirs = p.Export_include_dirs ∧
          (∀ a : Arch, (p2.Target.field a).Srcs = (p.Target.field a).Srcs) ∧
          p2 = { p with Enabled := p2.Enabled }) ∧
      (∀ (cfg2 : ClangDefaults) (ctx2 : LoadHookContext),
        ctx2.environ "LLVM_PREBUILTS_BASE" = ctx.environ "LLVM_PREBUILTS_BASE" →
        ctx2.wd = ctx.wd →
        ∃ p2, llvmPrebuiltLibraryStatic cfg2 ctx2 = [p2] ∧ p2.Enabled = p.Enabled) ∧
      (∀ a : Arch, ∃ s, (p.Target.field a).Srcs = some [s]) := by
  refine ⟨_, llvmPrebuiltLibraryStatic_eq cfg ctx, ?_, ?_, ?_⟩
  · intro ctx2 hmod hver hrel
    have hname : llvmPrebuiltLibraryStatic.name ctx2 = llvmPrebuiltLibraryStatic.name ctx := by
      simp only [llvmPrebuiltLibraryStatic.name, LoadHookContext.ModuleName, hmod]
    have hV : prebuiltsVersion cfg ctx2 = prebuiltsVersion cfg ctx := by
      simp only [prebuiltsVersion, LoadHookContext.GetenvWithDefault, LoadHookContext.Getenv,
        hver]
    have hR : releaseVersion cfg ctx2 = releaseVersion cfg ctx := by
      simp only [releaseVersion, LoadHookContext.GetenvWithDefault, LoadHookContext.Getenv,
        hrel]
    have hdir : getClangPrebuiltDir cfg ctx2 = getClangPrebuiltDir cfg ctx := by
      simp only [getClangPrebuiltDir, hV]
    have hlib : getClangResourceDir cfg ctx2 = getClangResourceDir cfg ctx := by
      simp only [getClangResourceDir, hdir, hR]
    refine ⟨_, llvmPrebuiltLibraryStatic_eq cfg ctx2, ?_, ?_, ?_⟩
    · simp only [hname, hdir]
    · intro a
      cases a <;> simp only [archProps.field, hname, hlib]
    · simp only [hname, hdir, hlib]
  · intro cfg2 ctx2 hbase hwd
    refine ⟨_, llvmPrebuiltLibraryStatic_eq cfg2 ctx2, ?_⟩
    show some (llvmPrebuiltLibraryStatic.enableLLVMPrebuilts ctx2) =
      some (llvmPrebuiltLibraryStatic.enableLLVMPrebuilts ctx)
    simp only [llvmPrebuiltLibraryStatic.enableLLVMPrebuilts, LoadHookContext.Getenv, hbase, hwd]
  · intro a
    cases a <;> exact ⟨_, rfl⟩

/-- Witness of C13: the same module and versions, once with
`LLVM_PREBUILTS_BASE=/tmp/llvm` (disabled) and once without override (enabled):
the patches carry the same six paths. -/
theorem static_hook_base_noninterference_witness :
    ∃ p p2,
      llvmPrebuiltLibraryStatic exampleDefaults
        ⟨envWith "LLVM_PREBUILTS_BASE" "/tmp/llvm", "prebuilt_libomp",
          some "/src/prebuilts/clang/host/linux-x86"⟩ = [p] ∧
      llvmPrebuiltLibraryStatic exampleDefaults
        ⟨fun _ => none, "prebuilt_libomp", none⟩ = [p2] ∧
      p.Enabled = some false ∧ p2.Enabled = some true ∧
      p2.Export_include_dirs = p.Export_include_dirs ∧
      (∀ a : Arch, (p2.Target.field a).Srcs = (p.Target.field a).Srcs) ∧
      p.Target.Android_x86.Srcs = some ["11.0.1/lib64/clang/11.0.1/lib/linux/i386/libomp.a"] := by
  obtain ⟨p, hp, h1, -, -⟩ := static_hook_base_noninterference exampleDefaults
    ⟨envWith "LLVM_PREBUILTS_BASE" "/tmp/llvm", "prebuilt_libomp",
      some "/src/prebuilts/clang/host/linux-x86"⟩
  obtain ⟨p2, hp2, hinc, hsrcs, -⟩ := h1 ⟨fun _ => none, "prebuilt_libomp", none⟩ rfl
    (by decide) (by decide)
  have hpe : [p] = _ := hp.symm.trans (llvmPrebuiltLibraryStatic_eq _ _)
  have hp2e : [p2] = _ := hp2.symm.trans (llvmPrebuiltLibraryStatic_eq _ _)
  have hpv := List.head_eq_of_cons_eq hpe
  have hp2v := List.head_eq_of_cons_eq hp2e
  refine ⟨p, p2, hp, hp2, ?_, ?_, hinc, hsrcs, ?_⟩
  · rw [hpv]; decide
  · rw [hp2v]; decide
  · rw [hpv]; decide

/-- C14. Every path the three hooks produce is relative: for every module name
and every value of `LLVM_PREBUILTS_VERSION` and `LLVM_RELEASE_VERSION` (values
starting with a slash included), the results of `getClangPrebuiltDir` and
`getClangResourceDir`, each of the six `Srcs` entries and the include-directory
entry of the multi-arch static patch, and the `Srcs` entry of the shared-runtime
and of the static-runtime patch are non-empty and do not start with a slash. -/
theorem all_paths_relative (cfg : ClangDefaults) (ctx : LoadHookContext) :
    path.isRelative (getClangPrebuiltDir cfg ctx) ∧
    path.isRelative (getClangResourceDir cfg ctx) ∧
    (∃ p, llvmPrebuiltLibraryStatic cfg ctx = [p] ∧
      (∀ a : Arch, ∃ s, (p.Target.field a).Srcs = some [s] ∧ path.isRelative s) ∧
      (∀ l, p.Export_include_dirs = some l → ∀ d ∈ l, path.isRelative d)) ∧
    (∀ p ∈ libClangRtPrebuiltLibraryShared cfg ctx,
      ∃ s, p.Srcs = some [s] ∧ path.isRelative s) ∧
    (∃ s, libClangRtPrebuiltLibraryStatic cfg ctx = [⟨some [s]⟩] ∧ path.isRelative s) := by
  have hdir := getClangPrebuiltDir_isRelative cfg ctx
  have hlib := getClangResourceDir_isRelative cfg ctx
  refine ⟨hdir, hlib, ⟨_, llvmPrebuiltLibraryStatic_eq cfg ctx, ?_, ?_⟩, ?_, ?_⟩
  · intro a
    cases a <;> exact ⟨_, rfl, path.Join_isRelative _ _ hlib⟩
  · intro l hl d hd
    by_cases hname : llvmPrebuiltLibraryStatic.name ctx = "libFuzzer.a"
    · have hl' : some [path.Join [getClangPrebuiltDir cfg ctx, "prebuilt_include", "llvm", "lib",
          "Fuzzer"]] = some l := by
        rw [← hl]
        exact (if_pos hname).symm
      rw [← Option.some.inj hl', List.mem_singleton] at hd
      rw [hd]
      exact path.Join_isRelative _ _ hdir
    · have hnone : (none : Option (List String)) = some l := by
        rw [← hl]
        exact (if_neg hname).symm
      exact absurd hnone (by simp)
  · intro p hp
    by_cases hforce : ctx.IsEnvTrue "FORCE_BUILD_SANITIZER_SHARED_OBJECTS" = true
    · simp [libClangRtPrebuiltLibraryShared, hforce] at hp
    · rw [libClangRtPrebuiltLibraryShared_eq cfg ctx (by simpa using hforce),
        List.mem_singleton] at hp
      subst hp
      exact ⟨_, rfl, path.Join_isRelative _ _ hlib⟩
  · exact ⟨_, libClangRtPrebuiltLibraryStatic_eq cfg ctx, path.Join_isRelative _ _ hlib⟩

/-- Witness of C14: both version variables set to rooted values. -/
theorem all_paths_relative_witness :
    getClangPrebuiltDir exampleDefaults
        ⟨fun k => if k = "LLVM_RELEASE_VERSION" then some "/9.0.3"
          else envWith "LLVM_PREBUILTS_VERSION" "/opt/llvm" k, "prebuilt_libomp", none⟩ =
      "opt/llvm" ∧
    libClangRtPrebuiltLibraryStatic exampleDefaults
        ⟨fun k => if k = "LLVM_RELEASE_VERSION" then some "/9.0.3"
          else envWith "LLVM_PREBUILTS_VERSION" "/opt/llvm" k, "prebuilt_libomp", none⟩ =
      [⟨some ["opt/llvm/lib64/clang/9.0.3/lib/linux/libomp.a"]⟩] ∧
    path.isRelative "opt/llvm/lib64/clang/9.0.3/lib/linux/libomp.a" := by
  obtain ⟨-, -, -, -, s, hs, hrel⟩ := all_paths_relative exampleDefaults
    ⟨fun k => if k = "LLVM_RELEASE_VERSION" then some "/9.0.3"
      else envWith "LLVM_PREBUILTS_VERSION" "/opt/llvm" k, "prebuilt_libomp", none⟩
  have hval : libClangRtPrebuiltLibraryStatic exampleDefaults
      ⟨fun k => if k = "LLVM_RELEASE_VERSION" then some "/9.0.3"
        else envWith "LLVM_PREBUILTS_VERSION" "/opt/llvm" k, "prebuilt_libomp", none⟩ =
      [⟨some ["opt/llvm/lib64/clang/9.0.3/lib/linux/libomp.a"]⟩] := by decide
  have hsv : s = "opt/llvm/lib64/clang/9.0.3/lib/linux/libomp.a" := by
    have h := hs.symm.trans hval
    simpa using h
  exact ⟨by decide, hval, hsv ▸ hrel⟩
